import Mathlib

/-!
Verification of the two-stage text-checking pipeline (`main.py`) and the
markdown-to-HTML markup converter (`telegram_bot.py`).

The pipeline stages call an external language-model service.  That service is
modelled as an oracle (`Services`): a pair of functions giving, for each
request, the observable outcome the running code reads back (the final value
of the detector's `session_state["language"]` slot, and the checker's
`RunOutput`).  The local control flow of `get_language`, `check_text` and
`process_text` is embedded faithfully; each embedded stage additionally
returns the list of outbound service calls it performs, so that claims about
call sequencing ("exactly once", "tag passed through unmodified") are
statable.
-/

namespace LangChecker

/-- A message of the external service's conversational response
(`agno` `Message`; only the `content` field is read by the code). -/
structure Message where
  content : String
deriving Repr, DecidableEq

/-- The external service's response object (`agno` `RunOutput`).
`response.messages` may be absent (`None`) or an explicit list; the code
guards with `if response.messages and len(response.messages) > 0`. -/
structure RunOutput where
  messages : Option (List Message)
deriving Repr, DecidableEq

/-- One outbound request to the external service, as issued by the code:
either the detector's run (carrying its prompt) or the checker's run
(carrying its prompt and the language value the session was seeded with). -/
inductive Call where
  | detect (prompt : String)
  | check (prompt : String) (language : Option String)
deriving Repr, DecidableEq

/-- Oracle for the external service: what the code observes back from each
kind of call.  `detectRun` returns the final content of the mutable
`session_state["language"]` slot after the detector's `agent.run` (the slot
starts as `None` and may be left unpopulated, hence `Option`).  `checkRun`
returns the checker's `RunOutput`, given the prompt and the language value
the checker's session was seeded with. -/
structure Services where
  detectRun : String → Option String
  checkRun : String → Option String → RunOutput

/-- The exact prompt built by `get_language`:
`f"Please identify the language of the following text:\n'{text}'"`. -/
def detectPrompt (text : String) : String :=
  "Please identify the language of the following text:\n'" ++ text ++ "'"

/-- The exact prompt built by `check_text`:
`f"Please verify the correctness of the following text:\n'{text}'"`. -/
def checkPrompt (text : String) : String :=
  "Please verify the correctness of the following text:\n'" ++ text ++ "'"

/-- Embedding of `main.get_language`: build the detector agent with a fresh
session whose `language` slot starts `None`, run it once on the prompt, and
read the slot back.  Returns the read value and the calls performed. -/
def get_language (svc : Services) (text : String) :
    Option String × List Call :=
  (svc.detectRun (detectPrompt text), [Call.detect (detectPrompt text)])

/-- The fixed fallback string returned by `check_text` when the response
carries no messages. -/
def fallbackText : String := "Unable to process the text."

/-- Embedding of `main.check_text`: build the checker agent with a fresh
session seeded with `language` exactly as given (in Python the value may be
`None`, hence `Option String`), run it once, and extract the content of the
final message, or the fixed fallback when `response.messages` is absent or
empty.  Returns the result and the calls performed. -/
def check_text (svc : Services) (text : String) (language : Option String) :
    String × List Call :=
  let response := svc.checkRun (checkPrompt text) language
  let result :=
    match response.messages with
    | some msgs =>
      match msgs.getLast? with
      | some m => m.content
      | none => fallbackText
    | none => fallbackText
  (result, [Call.check (checkPrompt text) language])

/-- Embedding of `main.process_text`: detect the language, then check the
text with the detected tag, returning the checker's result; the trace is the
concatenation of both stages' calls. -/
def process_text (svc : Services) (text : String) : String × List Call :=
  let lang := get_language svc text
  let checked := check_text svc text lang.1
  (checked.1, lang.2 ++ checked.2)

/-!
Embedding of `telegram_bot.markdown_to_telegram_html`.

The Python function is a chain of `html.escape` followed by seven `re.sub`
passes.  Each regex in the source is simple enough to be given an exact
operational reading, which we implement directly over `List Char`:

* `re.sub` scans left to right; at each position it attempts an anchored
  match, and on success emits the replacement and resumes right after the
  matched span (every pattern here matches at least two characters, so the
  empty-match rules of `re` never apply);
* `(.+?)` is a non-greedy one-or-more of any character except newline
  (`re.DOTALL` is set only for the fenced-code pass, whose content is
  matched by `(.*?)` and found by scanning for the first closing triple
  backtick);
* `(?<!\w)` / `(?!\w)` consult the character just before the match start /
  just after the match end.  `\w` is modelled over the ASCII range
  `[A-Za-z0-9_]`, where it coincides with Python's Unicode-aware `\w`;
  statements about the lookarounds keep the consulted characters in that
  range (see `isWordChar`).
-/

/-- The backtick character (code point 96). -/
def btk : Char := Char.ofNat 96

/-- Python's `\w` (word character) restricted to the ASCII range: letters,
digits, `_`.  Python's `re` on `str` is Unicode-aware, so its `\w` also
accepts non-ASCII word characters (e.g. accented letters); this predicate
agrees with Python's `\w` exactly on ASCII characters and reports `false`
on all others.  Theorems about the `(?<!\w)`/`(?!\w)` lookarounds therefore
restrict the characters tested by a lookaround to the ASCII range (where
the model is exact), and `isWordChar c = true` always implies Python-`\w`
membership. -/
def isWordChar (c : Char) : Bool :=
  c.isAlphanum || c = '_'

/-- Whether an optional preceding character is a word character (used for
the `(?<!\w)` lookbehind; at the start of the string there is no preceding
character and the lookbehind succeeds). -/
def wordOpt : Option Char → Bool
  | some c => isWordChar c
  | none => false

/-- `html.escape` (with its default `quote=True`) maps every occurrence of
each special character to its entity.  The Python source performs five
sequential whole-string `str.replace` passes (`&`, `<`, `>`, `"`, `'` in
that order); since no replacement string contains a character replaced by a
later pass, the composition equals this single character map. -/
def escapeChar (c : Char) : List Char :=
  if c = '&' then ('&' :: 'a' :: 'm' :: 'p' :: ';' :: [])
  else if c = '<' then ('&' :: 'l' :: 't' :: ';' :: [])
  else if c = '>' then ('&' :: 'g' :: 't' :: ';' :: [])
  else if c = '"' then ('&' :: 'q' :: 'u' :: 'o' :: 't' :: ';' :: [])
  else if c = '\'' then ('&' :: '#' :: 'x' :: '2' :: '7' :: ';' :: [])
  else [c]

/-- `html.escape(text)` over a character list. -/
def htmlEscape (l : List Char) : List Char :=
  (l.map escapeChar).flatten

/-- If `l` starts with the delimiter `d`, return what follows it. -/
def dropDelim : List Char → List Char → Option (List Char)
  | [], l => some l
  | d :: ds, c :: cs => if c = d then dropDelim ds cs else none
  | _ :: _, [] => none

/-- Non-greedy `(.+?)` followed by a closing delimiter: find the shortest
non-empty newline-free prefix after which `closer` succeeds; return the
captured content and the input remaining after the closer.  `closer` also
carries any lookahead of the pattern (a failed lookahead makes the lazy
group grow, exactly as regex backtracking does). -/
def lazyScan (closer : List Char → Option (List Char)) :
    List Char → Option (List Char × List Char)
  | [] => none
  | c :: cs =>
    if c = '\n' then none
    else
      match closer cs with
      | some r => some ([c], r)
      | none =>
        match lazyScan closer cs with
        | some p => some (c :: p.1, p.2)
        | none => none

/-- `(.*?)` of the fenced-code pass (with `re.DOTALL`): split the input at
the first occurrence of a triple backtick, returning the (possibly empty)
content before it and the input after it. -/
def splitAtTriple : List Char → Option (List Char × List Char)
  | [] => none
  | c :: cs =>
    if c = btk && cs.take 2 == [btk, btk] then some ([], cs.drop 2)
    else
      match splitAtTriple cs with
      | some p => some (c :: p.1, p.2)
      | none => none

/-- Anchored match of `` ```(?:\w*)\n(.*?)``` `` (DOTALL) with replacement
`<pre>\1</pre>`: a triple backtick, a greedy run of word characters (the
optional language hint), a newline, then the lazily-matched content up to
the next triple backtick. -/
def matchFence : List Char → Option (List Char × List Char)
  | c1 :: c2 :: c3 :: rest =>
    if c1 = btk && c2 = btk && c3 = btk then
      match rest.dropWhile isWordChar with
      | '\n' :: afterNl =>
        match splitAtTriple afterNl with
        | some p =>
          some (('<' :: 'p' :: 'r' :: 'e' :: '>' :: []) ++ p.1 ++
                ('<' :: '/' :: 'p' :: 'r' :: 'e' :: '>' :: []), p.2)
        | none => none
      | _ => none
    else none
  | _ => none

/-- Anchored match of `` `([^`]+)` `` with replacement `<code>\1</code>`:
a backtick, a maximal non-empty run of non-backticks (the `[^`]+` capture,
realised as `takeWhile`), a backtick. -/
def matchInlineCode : List Char → Option (List Char × List Char)
  | c :: rest =>
    if c = btk then
      if rest.takeWhile (fun x => x ≠ btk) = [] then none
      else
        match rest.dropWhile (fun x => x ≠ btk) with
        | b :: after =>
          if b = btk then
            some (('<' :: 'c' :: 'o' :: 'd' :: 'e' :: '>' :: []) ++
                  rest.takeWhile (fun x => x ≠ btk) ++
                  ('<' :: '/' :: 'c' :: 'o' :: 'd' :: 'e' :: '>' :: []), after)
          else none
        | [] => none
    else none
  | [] => none

/-- Anchored match of `\*\*(.+?)\*\*` with replacement `<b>\1</b>`. -/
def matchBoldStar : List Char → Option (List Char × List Char)
  | '*' :: '*' :: rest =>
    match lazyScan (dropDelim ('*' :: '*' :: [])) rest with
    | some p =>
      some (('<' :: 'b' :: '>' :: []) ++ p.1 ++
            ('<' :: '/' :: 'b' :: '>' :: []), p.2)
    | none => none
  | _ => none

/-- Anchored match of `__(.+?)__` with replacement `<b>\1</b>`. -/
def matchBoldUnder : List Char → Option (List Char × List Char)
  | '_' :: '_' :: rest =>
    match lazyScan (dropDelim ('_' :: '_' :: [])) rest with
    | some p =>
      some (('<' :: 'b' :: '>' :: []) ++ p.1 ++
            ('<' :: '/' :: 'b' :: '>' :: []), p.2)
    | none => none
  | _ => none

/-- Anchored match of `\*(.+?)\*` with replacement `<i>\1</i>`. -/
def matchItalicStar : List Char → Option (List Char × List Char)
  | '*' :: rest =>
    match lazyScan (dropDelim ('*' :: [])) rest with
    | some p =>
      some (('<' :: 'i' :: '>' :: []) ++ p.1 ++
            ('<' :: '/' :: 'i' :: '>' :: []), p.2)
    | none => none
  | _ => none

/-- The closer of the underscore-italic pattern: a single `_` followed by
the `(?!\w)` lookahead (the next character, if any, is not a word
character). -/
def closerUnder (cs : List Char) : Option (List Char) :=
  match dropDelim ('_' :: []) cs with
  | some r =>
    match r with
    | [] => some r
    | c :: _ => if isWordChar c then none else some r
  | none => none

/-- Anchored match of `(?<!\w)_(.+?)_(?!\w)` with replacement `<i>\1</i>`;
`prev` is the character immediately before the match position. -/
def matchItalicUnder (prev : Option Char) :
    List Char → Option (List Char × List Char)
  | '_' :: rest =>
    if wordOpt prev then none
    else
      match lazyScan closerUnder rest with
      | some p =>
        some (('<' :: 'i' :: '>' :: []) ++ p.1 ++
              ('<' :: '/' :: 'i' :: '>' :: []), p.2)
      | none => none
  | _ => none

/-- Anchored match of `~~(.+?)~~` with replacement `<s>\1</s>`. -/
def matchStrike : List Char → Option (List Char × List Char)
  | '~' :: '~' :: rest =>
    match lazyScan (dropDelim ('~' :: '~' :: [])) rest with
    | some p =>
      some (('<' :: 's' :: '>' :: []) ++ p.1 ++
            ('<' :: '/' :: 's' :: '>' :: []), p.2)
    | none => none
  | _ => none

/-- Anchored match of `\[([^\]]+)\]\(([^)]+)\)` with replacement
`<a href="\2">\1</a>`; the `[^\]]+` and `[^)]+` captures are realised as
`takeWhile`. -/
def matchLink : List Char → Option (List Char × List Char)
  | '[' :: rest =>
    if rest.takeWhile (fun x => x ≠ ']') = [] then none
    else
      match rest.dropWhile (fun x => x ≠ ']') with
      | d1 :: d2 :: afterPar =>
        if d1 = ']' ∧ d2 = '(' then
          if afterPar.takeWhile (fun x => x ≠ ')') = [] then none
          else
            match afterPar.dropWhile (fun x => x ≠ ')') with
            | e1 :: after =>
              if e1 = ')' then
                some (('<' :: 'a' :: ' ' :: 'h' :: 'r' :: 'e' :: 'f' :: '=' ::
                       '"' :: []) ++ afterPar.takeWhile (fun x => x ≠ ')') ++
                      ('"' :: '>' :: []) ++ rest.takeWhile (fun x => x ≠ ']') ++
                      ('<' :: '/' :: 'a' :: '>' :: []), after)
              else none
            | [] => none
        else none
      | _ => none
  | _ => none

/-- The `re.sub` scan: at each position attempt the anchored matcher `m`
(which receives the character just before the position, for lookbehinds);
on success emit the replacement and resume after the matched span, else
copy one character.  `fuel` bounds the recursion; since every successful
match consumes at least one character, `fuel = length` is always enough. -/
def reScan (m : Option Char → List Char → Option (List Char × List Char)) :
    Nat → Option Char → List Char → List Char
  | 0, _, l => l
  | _ + 1, _, [] => []
  | n + 1, prev, c :: cs =>
    match m prev (c :: cs) with
    | some (rep, rest) =>
      rep ++ reScan m n
        (((c :: cs).take ((c :: cs).length - rest.length)).getLast?) rest
    | none => c :: reScan m n (some c) cs

/-- One `re.sub` pass of a matcher that uses no lookbehind. -/
def runPass (m : List Char → Option (List Char × List Char))
    (l : List Char) : List Char :=
  reScan (fun _ => m) l.length none l

/-- One `re.sub` pass of the underscore-italic matcher (with lookbehind). -/
def runPassUnder (l : List Char) : List Char :=
  reScan matchItalicUnder l.length none l

/-- The seven substitution passes that follow the escaping step, in the
source's order: fenced code, inline code, bold (`**` then `__`), italic
(`*` then `_`), strikethrough, link. -/
def passesAfterEscape (l : List Char) : List Char :=
  runPass matchLink
    (runPass matchStrike
      (runPassUnder
        (runPass matchItalicStar
          (runPass matchBoldUnder
            (runPass matchBoldStar
              (runPass matchInlineCode
                (runPass matchFence l)))))))

/-- Embedding of `telegram_bot.markdown_to_telegram_html`: escape the HTML
special characters, then apply the seven markdown passes in order. -/
def markdown_to_telegram_html (s : String) : String :=
  String.mk (passesAfterEscape (htmlEscape s.data))

/-!
Infrastructure lemmas about the scanning primitives.
-/

/-- A successful `dropDelim` exhibits the delimiter as a prefix. -/
lemma dropDelim_eq : ∀ (d l r : List Char), dropDelim d l = some r → l = d ++ r := by
  intro d
  induction d with
  | nil =>
    intro l r h
    simp only [dropDelim, Option.some.injEq] at h
    simp [h]
  | cons a ds ih =>
    intro l r h
    cases l with
    | nil => simp [dropDelim] at h
    | cons c cs =>
      simp only [dropDelim] at h
      split_ifs at h with hca
      · subst hca
        rw [ih cs r h]
        rfl

/-- `dropDelim` succeeds on its own delimiter. -/
lemma dropDelim_self : ∀ (d tail : List Char), dropDelim d (d ++ tail) = some tail := by
  intro d
  induction d with
  | nil => intro tail; rfl
  | cons a ds ih => intro tail; simp [dropDelim, ih]

/-- A successful `lazyScan` splits the input as content, delimiter, rest;
the content is non-empty and newline-free.  The hypothesis states that the
closer consumes exactly the delimiter `d`. -/
lemma lazyScan_eq (closer : List Char → Option (List Char)) (d : List Char)
    (hc : ∀ cs r, closer cs = some r → cs = d ++ r) :
    ∀ l content rest, lazyScan closer l = some (content, rest) →
      l = content ++ d ++ rest ∧ content ≠ [] ∧ '\n' ∉ content
        ∧ closer (d ++ rest) = some rest := by
  intro l
  induction l with
  | nil => intro content rest h; simp [lazyScan] at h
  | cons x xs ih =>
    intro content rest h
    simp only [lazyScan] at h
    split_ifs at h with hnl
    cases hcl : closer xs with
    | some r0 =>
      rw [hcl] at h
      simp only [Option.some.injEq, Prod.mk.injEq] at h
      obtain ⟨h1, h2⟩ := h
      subst h1; subst h2
      have hxs := hc xs r0 hcl
      rw [hxs] at hcl
      refine ⟨?_, by simp, ?_, hcl⟩
      · rw [hxs]
        rfl
      · simp only [List.mem_singleton]
        exact fun h => hnl h.symm
    | none =>
      rw [hcl] at h
      cases hls : lazyScan closer xs with
      | some p =>
        rw [hls] at h
        simp only [Option.some.injEq, Prod.mk.injEq] at h
        obtain ⟨h1, h2⟩ := h
        subst h1; subst h2
        obtain ⟨e1, e2, e3, e4⟩ := ih p.1 p.2 hls
        refine ⟨by simp [e1], by simp, ?_, e4⟩
        simp only [List.mem_cons, not_or]
        exact ⟨fun hx => hnl hx.symm, e3⟩
      | none => rw [hls] at h; simp at h

/-- Completeness of `lazyScan`: if the closer fails at every position
strictly inside the content and succeeds right after it, the scan captures
exactly the content. -/
lemma lazyScan_complete (closer : List Char → Option (List Char))
    (tail out : List Char) :
    ∀ content, content ≠ [] → '\n' ∉ content →
      (∀ a b, content = a ++ b → a ≠ [] → b ≠ [] → closer (b ++ tail) = none) →
      closer tail = some out →
      lazyScan closer (content ++ tail) = some (content, out) := by
  intro content
  induction content with
  | nil => intro h; exact absurd rfl h
  | cons c cs ih =>
    intro _ hnl hfail hok
    have hcnl : ¬c = '\n' := by
      simp only [List.mem_cons, not_or] at hnl
      exact fun h => hnl.1 h.symm
    cases cs with
    | nil =>
      show lazyScan closer (c :: tail) = some ([c], out)
      simp [lazyScan, hcnl, hok]
    | cons c2 cs2 =>
      have hclose : closer ((c2 :: cs2) ++ tail) = none :=
        hfail [c] (c2 :: cs2) rfl (by simp) (by simp)
      have hrec : lazyScan closer ((c2 :: cs2) ++ tail) = some (c2 :: cs2, out) := by
        refine ih (by simp) ?_ ?_ hok
        · simp only [List.mem_cons, not_or] at hnl
          simp only [List.mem_cons, not_or]
          exact hnl.2
        · intro a b hab ha hb
          exact hfail (c :: a) b (by rw [hab]; rfl) (by simp) hb
      have step : lazyScan closer (c :: (c2 :: cs2 ++ tail))
          = if c = '\n' then none else
            match closer (c2 :: cs2 ++ tail) with
            | some r => some ([c], r)
            | none =>
              match lazyScan closer (c2 :: cs2 ++ tail) with
              | some p => some (c :: p.1, p.2)
              | none => none := rfl
      show lazyScan closer (c :: (c2 :: cs2 ++ tail)) = some (c :: c2 :: cs2, out)
      rw [step, if_neg hcnl, hclose, hrec]

/-- A successful `splitAtTriple` exhibits the triple backtick. -/
lemma splitAtTriple_eq : ∀ (l content rest : List Char),
    splitAtTriple l = some (content, rest) →
    l = content ++ btk :: btk :: btk :: rest := by
  intro l
  induction l with
  | nil => intro content rest h; simp [splitAtTriple] at h
  | cons c cs ih =>
    intro content rest h
    simp only [splitAtTriple] at h
    split_ifs at h with htrip
    · simp only [Option.some.injEq, Prod.mk.injEq] at h
      obtain ⟨h1, h2⟩ := h
      subst h1; subst h2
      simp only [Bool.and_eq_true, decide_eq_true_eq, beq_iff_eq] at htrip
      obtain ⟨hcb, htake⟩ := htrip
      subst hcb
      have := List.take_append_drop 2 cs
      rw [htake] at this
      conv =>
        lhs
        rw [← this]
      rfl
    · cases hsp : splitAtTriple cs with
      | some p =>
        rw [hsp] at h
        simp only [Option.some.injEq, Prod.mk.injEq] at h
        obtain ⟨h1, h2⟩ := h
        subst h1; subst h2
        rw [ih p.1 p.2 hsp]
        rfl
      | none => rw [hsp] at h; simp at h

/-- Whether a list of characters contains a triple backtick. -/
def hasTripleTick : List Char → Bool
  | [] => false
  | c :: t => (c = btk && t.take 2 == [btk, btk]) || hasTripleTick t

/-- Completeness of `splitAtTriple`: when the content contains no triple
backtick and does not end in a backtick, the split lands exactly at the
closing triple. -/
lemma splitTriple_complete : ∀ (content rest : List Char),
    hasTripleTick content = false →
    content.getLast? ≠ some btk →
    splitAtTriple (content ++ btk :: btk :: btk :: rest)
      = some (content, rest) := by
  intro content
  induction content with
  | nil =>
    intro rest _ _
    simp [splitAtTriple]
  | cons c cs ih =>
    intro rest htt hlast
    simp only [hasTripleTick, Bool.or_eq_false_iff, Bool.and_eq_false_iff] at htt
    have step : splitAtTriple (c :: (cs ++ btk :: btk :: btk :: rest))
        = if c = btk && (cs ++ btk :: btk :: btk :: rest).take 2 == [btk, btk]
          then some ([], (cs ++ btk :: btk :: btk :: rest).drop 2)
          else
            match splitAtTriple (cs ++ btk :: btk :: btk :: rest) with
            | some p => some (c :: p.1, p.2)
            | none => none := rfl
    have hcond : (c = btk && (cs ++ btk :: btk :: btk :: rest).take 2
        == [btk, btk]) = false := by
      cases cs with
      | nil =>
        have hl : (c :: ([] : List Char)).getLast? = some c := rfl
        rw [hl] at hlast
        have hc : ¬c = btk := fun h => hlast (by rw [h])
        simp [hc]
      | cons d ds =>
        cases ds with
        | nil =>
          have hl : (c :: [d]).getLast? = some d := rfl
          rw [hl] at hlast
          have hd : ¬d = btk := fun h => hlast (by rw [h])
          simp [hd]
        | cons e es =>
          rcases htt.1 with h | h
          · simp [show ¬c = btk from by simpa using h]
          · have he : ((d :: e :: es) ++ btk :: btk :: btk :: rest).take 2
                = (d :: e :: es).take 2 := rfl
            rw [he]
            simp only [Bool.and_eq_false_iff]
            right
            simpa using h
    have hrec : splitAtTriple (cs ++ btk :: btk :: btk :: rest)
        = some (cs, rest) := by
      refine ih rest htt.2 ?_
      cases cs with
      | nil => simp
      | cons d ds =>
        rw [show (c :: d :: ds).getLast? = (d :: ds).getLast? from
          List.getLast?_cons_cons] at hlast
        exact hlast
    show splitAtTriple (c :: (cs ++ btk :: btk :: btk :: rest))
        = some (c :: cs, rest)
    rw [step, hcond]
    simp only [Bool.false_eq_true, if_false]
    rw [hrec]

/-- `dropWhile` skips over a block of characters that all satisfy the
predicate. -/
lemma dropWhile_append_all (p : Char → Bool) :
    ∀ (a l : List Char), (∀ c ∈ a, p c = true) →
      List.dropWhile p (a ++ l) = List.dropWhile p l := by
  intro a
  induction a with
  | nil => intro l _; rfl
  | cons c cs ih =>
    intro l h
    have hc : p c = true := h c (by simp)
    show List.dropWhile p (c :: (cs ++ l)) = List.dropWhile p l
    rw [List.dropWhile_cons, if_pos hc]
    exact ih l fun x hx => h x (by simp [hx])

/-- The character preceding the scan position after copying a segment. -/
def prevAfter (seg : List Char) (p : Option Char) : Option Char :=
  match seg.getLast? with
  | some c => some c
  | none => p

lemma prevAfter_cons (c : Char) (seg : List Char) (p : Option Char) :
    prevAfter (c :: seg) p = prevAfter seg (some c) := by
  cases seg with
  | nil => rfl
  | cons d t =>
    simp only [prevAfter, List.getLast?_cons_cons]
    cases hg : (d :: t).getLast? with
    | none =>
      exfalso
      have : d :: t ≠ [] := by simp
      cases t with
      | nil => simp at hg
      | cons e es =>
        rw [List.getLast?_cons_cons] at hg
        exact absurd hg (by
          have h2 := List.getLast?_isSome.mpr (show e :: es ≠ [] by simp)
          intro hh
          rw [hh] at h2
          simp at h2)
    | some x => rfl

/-- A pass whose matcher ignores the lookbehind gives the same output for
any claimed previous character. -/
lemma reScan_prev_irrel (m0 : List Char → Option (List Char × List Char)) :
    ∀ (n : Nat) (p q : Option Char) (l : List Char),
      reScan (fun _ => m0) n p l = reScan (fun _ => m0) n q l := by
  intro n p q l
  cases n with
  | zero => rfl
  | succ n => cases l with
    | nil => rfl
    | cons c cs => rfl

/-- Fuel irrelevance: any fuel at least the input length gives the result
at fuel exactly the input length, provided every successful match consumes
at least one character. -/
lemma reScan_fuel (m : Option Char → List Char → Option (List Char × List Char))
    (hcons : ∀ p l rep rest, m p l = some (rep, rest) → rest.length < l.length) :
    ∀ (n : Nat) (p : Option Char) (l : List Char), l.length ≤ n →
      reScan m n p l = reScan m l.length p l := by
  intro n
  induction n using Nat.strong_induction_on with
  | _ n ih =>
    intro p l hl
    match n, l with
    | 0, l =>
      have : l = [] := List.eq_nil_of_length_eq_zero (Nat.le_zero.mp hl)
      subst this
      rfl
    | n + 1, [] => rfl
    | n + 1, c :: cs =>
      have hlen : (c :: cs).length = cs.length + 1 := rfl
      rw [hlen]
      show (match m p (c :: cs) with
        | some (rep, rest) => rep ++ reScan m n
            (((c :: cs).take ((c :: cs).length - rest.length)).getLast?) rest
        | none => c :: reScan m n (some c) cs)
        = (match m p (c :: cs) with
        | some (rep, rest) => rep ++ reScan m cs.length
            (((c :: cs).take ((c :: cs).length - rest.length)).getLast?) rest
        | none => c :: reScan m cs.length (some c) cs)
      cases hm : m p (c :: cs) with
      | some pr =>
        obtain ⟨rep, rest⟩ := pr
        have hr : rest.length < cs.length + 1 := by
          have := hcons p (c :: cs) rep rest hm
          simpa using this
        have hn : cs.length + 1 ≤ n + 1 := by
          simpa using hl
        have e1 := ih n (Nat.lt_succ_self n)
          (((c :: cs).take ((c :: cs).length - rest.length)).getLast?) rest
          (by omega)
        have e2 := ih cs.length (by omega)
          (((c :: cs).take ((c :: cs).length - rest.length)).getLast?) rest
          (by omega)
        dsimp only
        rw [e1, e2]
      | none =>
        have hn : cs.length + 1 ≤ n + 1 := by
          simpa using hl
        have e1 := ih n (Nat.lt_succ_self n) (some c) cs (by omega)
        have e2 := ih cs.length (by omega) (some c) cs (Nat.le_refl _)
        dsimp only
        rw [e1, e2]

/-- Copying lemma for a lookbehind-free pass: a leading segment on which
the matcher never fires is copied verbatim. -/
lemma reScan_copy (m0 : List Char → Option (List Char × List Char)) :
    ∀ (seg l : List Char) (n : Nat) (p : Option Char),
      (∀ a b, seg = a ++ b → b ≠ [] → m0 (b ++ l) = none) →
      reScan (fun _ => m0) (seg.length + n) p (seg ++ l)
        = seg ++ reScan (fun _ => m0) n p l := by
  intro seg
  induction seg with
  | nil => intro l n p _; simp
  | cons c cs ih =>
    intro l n p h
    have hnone : m0 ((c :: cs) ++ l) = none := h [] (c :: cs) rfl (by simp)
    have hfuel : (c :: cs).length + n = (cs.length + n) + 1 := by
      simp only [List.length_cons]
      omega
    rw [hfuel]
    have step : reScan (fun _ => m0) ((cs.length + n) + 1) p ((c :: cs) ++ l)
        = c :: reScan (fun _ => m0) (cs.length + n) (some c) (cs ++ l) := by
      show (match m0 ((c :: cs) ++ l) with
        | some (rep, rest) => rep ++ reScan (fun _ => m0) (cs.length + n)
            ((((c :: cs) ++ l).take
              (((c :: cs) ++ l).length - rest.length)).getLast?) rest
        | none => c :: reScan (fun _ => m0) (cs.length + n) (some c) (cs ++ l))
        = c :: reScan (fun _ => m0) (cs.length + n) (some c) (cs ++ l)
      rw [hnone]
    rw [step, ih l n (some c) (fun a b hab hb => h (c :: a) b (by rw [hab]; rfl) hb),
      reScan_prev_irrel m0 n (some c) p l]
    rfl

/-!
A three-character scanner used to state that the converter's output never
contains the character sequence `<`, `s`, `c` — hence never a live
`<script` tag.  `scStep` is the transition function of the obvious DFA
(state = length of the longest suffix matching a prefix of the sequence,
state 3 = found, absorbing); `scRun` runs it over a list.
-/

/-- DFA step for detecting the sequence `<`, `s`, `c`. -/
def scStep (s : Nat) (c : Char) : Nat :=
  if s = 3 then 3
  else if c = '<' then 1
  else if c = 's' ∧ s = 1 then 2
  else if c = 'c' ∧ s = 2 then 3
  else 0

/-- Run of the `<`/`s`/`c` detector from a given state. -/
def scRun (s : Nat) (l : List Char) : Nat := l.foldl scStep s

/-- Whether a character list contains the contiguous sequence `<sc`. -/
def containsSC (l : List Char) : Bool := scRun 0 l == 3

lemma scRun_cons (s : Nat) (c : Char) (l : List Char) :
    scRun s (c :: l) = scRun (scStep s c) l := rfl

lemma scRun_append (s : Nat) (a b : List Char) :
    scRun s (a ++ b) = scRun (scRun s a) b := by
  simp [scRun, List.foldl_append]

/-- State 3 is absorbing. -/
lemma scRun_dead : ∀ l : List Char, scRun 3 l = 3 := by
  intro l
  induction l with
  | nil => rfl
  | cons c t ih =>
    rw [scRun_cons, show scStep 3 c = 3 from by simp [scStep]]
    exact ih

/-- If the detector fires from state 0, it fires from every state. -/
lemma scRun_mono : ∀ l : List Char, scRun 0 l = 3 → ∀ s, scRun s l = 3 := by
  intro l
  induction l with
  | nil => intro h; exact absurd h (by simp [scRun])
  | cons c t ih =>
    intro h s
    rw [scRun_cons] at h ⊢
    by_cases hc : c = '<'
    · subst hc
      have h0 : scStep 0 '<' = 1 := by simp [scStep]
      rw [h0] at h
      by_cases hs : s = 3
      · rw [show scStep s '<' = 3 from by simp [scStep, hs]]
        exact scRun_dead t
      · rw [show scStep s '<' = 1 from by simp [scStep, hs]]
        exact h
    · have h0 : scStep 0 c = 0 := by simp [scStep, hc]
      rw [h0] at h
      exact ih h (scStep s c)

lemma scRun_ne3_right (a b : List Char) (h : scRun 0 (a ++ b) ≠ 3) :
    scRun 0 b ≠ 3 := by
  intro hb
  exact h (by rw [scRun_append]; exact scRun_mono b hb (scRun 0 a))

lemma scRun_ne3_mid (a m b : List Char) (h : scRun 0 (a ++ m ++ b) ≠ 3) :
    scRun 0 m ≠ 3 := by
  intro hm
  refine h ?_
  rw [scRun_append, scRun_append, scRun_mono m hm (scRun 0 a)]
  exact scRun_dead b

/-- After an opening `<`, the run does not depend on the starting state
(as long as it is live). -/
lemma scRun_lt_cons (t : Nat) (ht : t ≠ 3) (x : List Char) :
    scRun t ('<' :: x) = scRun 1 x := by
  rw [scRun_cons]
  congr 1
  simp [scStep, ht]

/-!
Inversion lemmas for the eight anchored matchers: a successful match
exhibits the matched span of the input and the exact replacement.
-/

lemma matchFence_eq (l rep rest : List Char)
    (h : matchFence l = some (rep, rest)) :
    ∃ hint content, (∀ c ∈ hint, isWordChar c = true) ∧
      l = btk :: btk :: btk ::
        (hint ++ '\n' :: (content ++ btk :: btk :: btk :: rest)) ∧
      rep = ('<' :: 'p' :: 'r' :: 'e' :: '>' :: []) ++ content ++
        ('<' :: '/' :: 'p' :: 'r' :: 'e' :: '>' :: []) := by
  unfold matchFence at h
  split at h
  next c1 c2 c3 rest0 =>
    split_ifs at h with hb
    simp only [Bool.and_eq_true, decide_eq_true_eq] at hb
    obtain ⟨⟨e1, e2⟩, e3⟩ := hb
    subst e1; subst e2; subst e3
    split at h
    next afterNl heq =>
      split at h
      next p hsp =>
        simp only [Option.some.injEq, Prod.mk.injEq] at h
        obtain ⟨hrep, hrest⟩ := h
        subst hrest
        refine ⟨rest0.takeWhile isWordChar, p.1,
          fun c hc => List.mem_takeWhile_imp hc, ?_, by rw [← hrep]⟩
        have hsplit := List.takeWhile_append_dropWhile
          (p := isWordChar) (l := rest0)
        have hafter := splitAtTriple_eq afterNl p.1 p.2 hsp
        simp only [List.cons.injEq, true_and]
        conv_lhs => rw [← hsplit]
        rw [heq, hafter]
      next => exact absurd h (by simp)
    next => exact absurd h (by simp)
  next => exact absurd h (by simp)

lemma matchInlineCode_eq (l rep rest : List Char)
    (h : matchInlineCode l = some (rep, rest)) :
    ∃ content, content ≠ [] ∧ (∀ c ∈ content, ¬c = btk) ∧
      l = btk :: (content ++ btk :: rest) ∧
      rep = ('<' :: 'c' :: 'o' :: 'd' :: 'e' :: '>' :: []) ++ content ++
        ('<' :: '/' :: 'c' :: 'o' :: 'd' :: 'e' :: '>' :: []) := by
  unfold matchInlineCode at h
  split at h
  next c rest0 =>
    split_ifs at h with hcb htw
    subst hcb
    split at h
    next b after heq =>
      split_ifs at h with hbb
      subst hbb
      simp only [Option.some.injEq, Prod.mk.injEq] at h
      obtain ⟨hrep, hrest⟩ := h
      subst hrest
      refine ⟨rest0.takeWhile (fun x => x ≠ btk), htw, ?_, ?_, by rw [← hrep]⟩
      · intro c hc
        have hp := List.mem_takeWhile_imp hc
        simpa using hp
      · have hsplit := List.takeWhile_append_dropWhile
          (p := fun x => decide (x ≠ btk)) (l := rest0)
        simp only [List.cons.injEq, true_and]
        conv_lhs => rw [← hsplit]
        rw [heq]
    next => exact absurd h (by simp)
  next => exact absurd h (by simp)

lemma matchBoldStar_eq (l rep rest : List Char)
    (h : matchBoldStar l = some (rep, rest)) :
    ∃ content, content ≠ [] ∧ '\n' ∉ content ∧
      l = '*' :: '*' :: (content ++ '*' :: '*' :: rest) ∧
      rep = ('<' :: 'b' :: '>' :: []) ++ content ++
        ('<' :: '/' :: 'b' :: '>' :: []) := by
  unfold matchBoldStar at h
  split at h
  case h_2 => exact absurd h (by simp)
  case h_1 rest0 =>
    split at h
    case h_2 => exact absurd h (by simp)
    case h_1 p hls =>
      simp only [Option.some.injEq, Prod.mk.injEq] at h
      obtain ⟨hrep, hrest⟩ := h
      subst hrest
      obtain ⟨e1, e2, e3, _⟩ := lazyScan_eq _ ('*' :: '*' :: [])
        (fun cs r hc => dropDelim_eq _ cs r hc) rest0 p.1 p.2 hls
      refine ⟨p.1, e2, e3, ?_, by rw [← hrep]⟩
      simp only [List.cons.injEq, true_and]
      rw [e1]
      simp [List.append_assoc]

lemma matchBoldUnder_eq (l rep rest : List Char)
    (h : matchBoldUnder l = some (rep, rest)) :
    ∃ content, content ≠ [] ∧ '\n' ∉ content ∧
      l = '_' :: '_' :: (content ++ '_' :: '_' :: rest) ∧
      rep = ('<' :: 'b' :: '>' :: []) ++ content ++
        ('<' :: '/' :: 'b' :: '>' :: []) := by
  unfold matchBoldUnder at h
  split at h
  case h_2 => exact absurd h (by simp)
  case h_1 rest0 =>
    split at h
    case h_2 => exact absurd h (by simp)
    case h_1 p hls =>
      simp only [Option.some.injEq, Prod.mk.injEq] at h
      obtain ⟨hrep, hrest⟩ := h
      subst hrest
      obtain ⟨e1, e2, e3, _⟩ := lazyScan_eq _ ('_' :: '_' :: [])
        (fun cs r hc => dropDelim_eq _ cs r hc) rest0 p.1 p.2 hls
      refine ⟨p.1, e2, e3, ?_, by rw [← hrep]⟩
      simp only [List.cons.injEq, true_and]
      rw [e1]
      simp [List.append_assoc]

lemma matchItalicStar_eq (l rep rest : List Char)
    (h : matchItalicStar l = some (rep, rest)) :
    ∃ content, content ≠ [] ∧ '\n' ∉ content ∧
      l = '*' :: (content ++ '*' :: rest) ∧
      rep = ('<' :: 'i' :: '>' :: []) ++ content ++
        ('<' :: '/' :: 'i' :: '>' :: []) := by
  unfold matchItalicStar at h
  split at h
  case h_2 => exact absurd h (by simp)
  case h_1 rest0 =>
    split at h
    case h_2 => exact absurd h (by simp)
    case h_1 p hls =>
      simp only [Option.some.injEq, Prod.mk.injEq] at h
      obtain ⟨hrep, hrest⟩ := h
      subst hrest
      obtain ⟨e1, e2, e3, _⟩ := lazyScan_eq _ ('*' :: [])
        (fun cs r hc => dropDelim_eq _ cs r hc) rest0 p.1 p.2 hls
      refine ⟨p.1, e2, e3, ?_, by rw [← hrep]⟩
      simp only [List.cons.injEq, true_and]
      rw [e1]
      simp [List.append_assoc]

lemma matchStrike_eq (l rep rest : List Char)
    (h : matchStrike l = some (rep, rest)) :
    ∃ content, content ≠ [] ∧ '\n' ∉ content ∧
      l = '~' :: '~' :: (content ++ '~' :: '~' :: rest) ∧
      rep = ('<' :: 's' :: '>' :: []) ++ content ++
        ('<' :: '/' :: 's' :: '>' :: []) := by
  unfold matchStrike at h
  split at h
  case h_2 => exact absurd h (by simp)
  case h_1 rest0 =>
    split at h
    case h_2 => exact absurd h (by simp)
    case h_1 p hls =>
      simp only [Option.some.injEq, Prod.mk.injEq] at h
      obtain ⟨hrep, hrest⟩ := h
      subst hrest
      obtain ⟨e1, e2, e3, _⟩ := lazyScan_eq _ ('~' :: '~' :: [])
        (fun cs r hc => dropDelim_eq _ cs r hc) rest0 p.1 p.2 hls
      refine ⟨p.1, e2, e3, ?_, by rw [← hrep]⟩
      simp only [List.cons.injEq, true_and]
      rw [e1]
      simp [List.append_assoc]

/-- Inversion of the underscore-italic closer: it consumes exactly one
underscore and its lookahead saw no word character. -/
lemma closerUnder_eq (cs r : List Char) (h : closerUnder cs = some r) :
    cs = '_' :: r
      ∧ (r = [] ∨ ∃ c cs2, r = c :: cs2 ∧ isWordChar c = false) := by
  unfold closerUnder at h
  cases hd : dropDelim ('_' :: []) cs with
  | none => rw [hd] at h; exact absurd h (by simp)
  | some r0 =>
    rw [hd] at h
    have hcs := dropDelim_eq _ cs r0 hd
    cases r0 with
    | nil =>
      simp only [Option.some.injEq] at h
      subst h
      exact ⟨hcs, Or.inl rfl⟩
    | cons c cs2 =>
      dsimp only at h
      split_ifs at h with hw
      simp only [Option.some.injEq] at h
      subst h
      exact ⟨hcs, Or.inr ⟨c, cs2, rfl, by simpa using hw⟩⟩

lemma matchItalicUnder_eq (p : Option Char) (l rep rest : List Char)
    (h : matchItalicUnder p l = some (rep, rest)) :
    wordOpt p = false ∧
    ∃ content, content ≠ [] ∧ '\n' ∉ content ∧
      l = '_' :: (content ++ '_' :: rest) ∧
      (rest = [] ∨ ∃ c cs2, rest = c :: cs2 ∧ isWordChar c = false) ∧
      rep = ('<' :: 'i' :: '>' :: []) ++ content ++
        ('<' :: '/' :: 'i' :: '>' :: []) := by
  unfold matchItalicUnder at h
  split at h
  next rest0 =>
    split_ifs at h with hw
    split at h
    next q hls =>
      simp only [Option.some.injEq, Prod.mk.injEq] at h
      obtain ⟨hrep, hrest⟩ := h
      subst hrest
      obtain ⟨e1, e2, e3, e4⟩ := lazyScan_eq closerUnder ('_' :: [])
        (fun cs r hc => (closerUnder_eq cs r hc).1) rest0 q.1 q.2 hls
      refine ⟨by simpa using hw, q.1, e2, e3, ?_,
        (closerUnder_eq _ _ e4).2, by rw [← hrep]⟩
      simp only [List.cons.injEq, true_and]
      rw [e1]
      simp [List.append_assoc]
    next => exact absurd h (by simp)
  next => exact absurd h (by simp)

lemma matchLink_eq (l rep rest : List Char)
    (h : matchLink l = some (rep, rest)) :
    ∃ label url, label ≠ [] ∧ url ≠ [] ∧
      (∀ c ∈ label, ¬c = ']') ∧ (∀ c ∈ url, ¬c = ')') ∧
      l = '[' :: (label ++ ']' :: '(' :: (url ++ ')' :: rest)) ∧
      rep = ('<' :: 'a' :: ' ' :: 'h' :: 'r' :: 'e' :: 'f' :: '=' ::
        '"' :: []) ++ url ++ ('"' :: '>' :: []) ++ label ++
        ('<' :: '/' :: 'a' :: '>' :: []) := by
  unfold matchLink at h
  split at h
  next rest0 =>
    split_ifs at h with hlab
    split at h
    next d1 d2 afterPar heq =>
      split_ifs at h with hdd hurl
      obtain ⟨hd1, hd2⟩ := hdd
      subst hd1; subst hd2
      split at h
      next e1 after heq2 =>
        split_ifs at h with he1
        subst he1
        simp only [Option.some.injEq, Prod.mk.injEq] at h
        obtain ⟨hrep, hrest⟩ := h
        subst hrest
        refine ⟨rest0.takeWhile (fun x => x ≠ ']'),
          afterPar.takeWhile (fun x => x ≠ ')'), hlab, hurl,
          ?_, ?_, ?_, by rw [← hrep]⟩
        · intro c hc
          have hp := List.mem_takeWhile_imp hc
          simpa using hp
        · intro c hc
          have hp := List.mem_takeWhile_imp hc
          simpa using hp
        · have hs1 := List.takeWhile_append_dropWhile
            (p := fun x => decide (x ≠ ']')) (l := rest0)
          have hs2 := List.takeWhile_append_dropWhile
            (p := fun x => decide (x ≠ ')')) (l := afterPar)
          simp only [List.cons.injEq, true_and]
          conv_lhs => rw [← hs1]
          rw [heq]
          congr 1
          simp only [List.cons.injEq, true_and]
          conv_lhs => rw [← hs2]
          rw [heq2]
      next => exact absurd h (by simp)
    next => exact absurd h (by simp)
  next => exact absurd h (by simp)

/-- The facts about a matcher needed to push the `<sc`-freedom invariant
through a whole pass: a match consumes input; its replacement starts with
`<`, ends with `>`, and neither the replacement nor the unconsumed rest
introduces the sequence `<sc` when the input lacked it. -/
structure PassOK (m : Option Char → List Char → Option (List Char × List Char)) :
    Prop where
  consume : ∀ p l rep rest, m p l = some (rep, rest) → rest.length < l.length
  repHead : ∀ p l rep rest, m p l = some (rep, rest) → ∃ t, rep = '<' :: t
  repLast : ∀ p l rep rest, m p l = some (rep, rest) →
    ∃ t, rep = t ++ ('>' :: [])
  scanRep : ∀ p l rep rest, m p l = some (rep, rest) →
    scRun 0 l ≠ 3 → scRun 0 rep ≠ 3
  scanRest : ∀ p l rep rest, m p l = some (rep, rest) →
    scRun 0 l ≠ 3 → scRun 0 rest ≠ 3

/-- A pass satisfying `PassOK` preserves `<sc`-freedom, from any live
scanner state. -/
theorem reScan_scan (m : Option Char → List Char → Option (List Char × List Char))
    (hm : PassOK m) :
    ∀ (n : Nat) (p : Option Char) (l : List Char) (s : Nat),
      scRun s l ≠ 3 → scRun s (reScan m n p l) ≠ 3 := by
  intro n
  induction n with
  | zero => intro p l s h; exact h
  | succ n ih =>
    intro p l s h
    cases l with
    | nil => exact h
    | cons c cs =>
      cases hmm : m p (c :: cs) with
      | none =>
        have hout : reScan m (n + 1) p (c :: cs)
            = c :: reScan m n (some c) cs := by
          show (match m p (c :: cs) with
            | some (rep, rest) => rep ++ reScan m n
                (((c :: cs).take ((c :: cs).length - rest.length)).getLast?) rest
            | none => c :: reScan m n (some c) cs)
            = c :: reScan m n (some c) cs
          rw [hmm]
        rw [hout, scRun_cons]
        rw [scRun_cons] at h
        exact ih (some c) cs (scStep s c) h
      | some pr =>
        obtain ⟨rep, rest⟩ := pr
        have hout : reScan m (n + 1) p (c :: cs)
            = rep ++ reScan m n
                (((c :: cs).take ((c :: cs).length - rest.length)).getLast?)
                rest := by
          show (match m p (c :: cs) with
            | some (rep, rest) => rep ++ reScan m n
                (((c :: cs).take ((c :: cs).length - rest.length)).getLast?) rest
            | none => c :: reScan m n (some c) cs)
            = _
          rw [hmm]
        have hs3 : s ≠ 3 := by
          intro hs
          subst hs
          exact h (scRun_dead (c :: cs))
        have h0 : scRun 0 (c :: cs) ≠ 3 := by
          intro h0
          exact h (scRun_mono (c :: cs) h0 s)
        have hrep0 := hm.scanRep p (c :: cs) rep rest hmm h0
        have hrest0 := hm.scanRest p (c :: cs) rep rest hmm h0
        obtain ⟨t1, ht1⟩ := hm.repHead p (c :: cs) rep rest hmm
        obtain ⟨t2, ht2⟩ := hm.repLast p (c :: cs) rep rest hmm
        have hsr : scRun s rep = scRun 0 rep := by
          rw [ht1, scRun_lt_cons s hs3, scRun_lt_cons 0 (by decide)]
        have hrz : scRun 0 rep = 0 := by
          have hform : scRun 0 rep = scStep (scRun 0 t2) '>' := by
            rw [ht2, scRun_append]
            rfl
          by_cases hx : scRun 0 t2 = 3
          · exfalso
            apply hrep0
            rw [hform, hx]
            rfl
          · rw [hform]
            simp [scStep, hx]
        rw [hout, scRun_append, hsr, hrz]
        exact ih _ rest 0 hrest0

lemma passOK_boldStar : PassOK (fun _ => matchBoldStar) := by
  constructor
  · intro p l rep rest h
    obtain ⟨content, hne, hnl, hl, hrep⟩ := matchBoldStar_eq l rep rest h
    subst hl
    simp only [List.length_cons, List.length_append]
    omega
  · intro p l rep rest h
    obtain ⟨content, hne, hnl, hl, hrep⟩ := matchBoldStar_eq l rep rest h
    exact ⟨'b' :: '>' :: (content ++ ('<' :: '/' :: 'b' :: '>' :: [])),
      by rw [hrep]; simp⟩
  · intro p l rep rest h
    obtain ⟨content, hne, hnl, hl, hrep⟩ := matchBoldStar_eq l rep rest h
    exact ⟨('<' :: 'b' :: '>' :: []) ++ content ++ ('<' :: '/' :: 'b' :: []),
      by rw [hrep]; simp⟩
  · intro p l rep rest h h0
    obtain ⟨content, hne, hnl, hl, hrep⟩ := matchBoldStar_eq l rep rest h
    have hshape : l = ('*' :: '*' :: []) ++ content ++ ('*' :: '*' :: rest) := by
      rw [hl]; simp
    rw [hshape] at h0
    have hcontent := scRun_ne3_mid _ _ _ h0
    rw [hrep, scRun_append, scRun_append,
      show scRun 0 ('<' :: 'b' :: '>' :: []) = 0 from by decide,
      show scRun (scRun 0 content) ('<' :: '/' :: 'b' :: '>' :: []) = 0 from by
        rw [scRun_lt_cons _ hcontent]; decide]
    decide
  · intro p l rep rest h h0
    obtain ⟨content, hne, hnl, hl, hrep⟩ := matchBoldStar_eq l rep rest h
    have hshape : l = ('*' :: '*' :: (content ++ ('*' :: '*' :: []))) ++ rest := by
      rw [hl]; simp
    rw [hshape] at h0
    exact scRun_ne3_right _ _ h0

lemma passOK_boldUnder : PassOK (fun _ => matchBoldUnder) := by
  constructor
  · intro p l rep rest h
    obtain ⟨content, hne, hnl, hl, hrep⟩ := matchBoldUnder_eq l rep rest h
    subst hl
    simp only [List.length_cons, List.length_append]
    omega
  · intro p l rep rest h
    obtain ⟨content, hne, hnl, hl, hrep⟩ := matchBoldUnder_eq l rep rest h
    exact ⟨'b' :: '>' :: (content ++ ('<' :: '/' :: 'b' :: '>' :: [])),
      by rw [hrep]; simp⟩
  · intro p l rep rest h
    obtain ⟨content, hne, hnl, hl, hrep⟩ := matchBoldUnder_eq l rep rest h
    exact ⟨('<' :: 'b' :: '>' :: []) ++ content ++ ('<' :: '/' :: 'b' :: []),
      by rw [hrep]; simp⟩
  · intro p l rep rest h h0
    obtain ⟨content, hne, hnl, hl, hrep⟩ := matchBoldUnder_eq l rep rest h
    have hshape : l = ('_' :: '_' :: []) ++ content ++ ('_' :: '_' :: rest) := by
      rw [hl]; simp
    rw [hshape] at h0
    have hcontent := scRun_ne3_mid _ _ _ h0
    rw [hrep, scRun_append, scRun_append,
      show scRun 0 ('<' :: 'b' :: '>' :: []) = 0 from by decide,
      show scRun (scRun 0 content) ('<' :: '/' :: 'b' :: '>' :: []) = 0 from by
        rw [scRun_lt_cons _ hcontent]; decide]
    decide
  · intro p l rep rest h h0
    obtain ⟨content, hne, hnl, hl, hrep⟩ := matchBoldUnder_eq l rep rest h
    have hshape : l = ('_' :: '_' :: (content ++ ('_' :: '_' :: []))) ++ rest := by
      rw [hl]; simp
    rw [hshape] at h0
    exact scRun_ne3_right _ _ h0

lemma passOK_italicStar : PassOK (fun _ => matchItalicStar) := by
  constructor
  · intro p l rep rest h
    obtain ⟨content, hne, hnl, hl, hrep⟩ := matchItalicStar_eq l rep rest h
    subst hl
    simp only [List.length_cons, List.length_append]
    omega
  · intro p l rep rest h
    obtain ⟨content, hne, hnl, hl, hrep⟩ := matchItalicStar_eq l rep rest h
    exact ⟨'i' :: '>' :: (content ++ ('<' :: '/' :: 'i' :: '>' :: [])),
      by rw [hrep]; simp⟩
  · intro p l rep rest h
    obtain ⟨content, hne, hnl, hl, hrep⟩ := matchItalicStar_eq l rep rest h
    exact ⟨('<' :: 'i' :: '>' :: []) ++ content ++ ('<' :: '/' :: 'i' :: []),
      by rw [hrep]; simp⟩
  · intro p l rep rest h h0
    obtain ⟨content, hne, hnl, hl, hrep⟩ := matchItalicStar_eq l rep rest h
    have hshape : l = ('*' :: []) ++ content ++ ('*' :: rest) := by
      rw [hl]; simp
    rw [hshape] at h0
    have hcontent := scRun_ne3_mid _ _ _ h0
    rw [hrep, scRun_append, scRun_append,
      show scRun 0 ('<' :: 'i' :: '>' :: []) = 0 from by decide,
      show scRun (scRun 0 content) ('<' :: '/' :: 'i' :: '>' :: []) = 0 from by
        rw [scRun_lt_cons _ hcontent]; decide]
    decide
  · intro p l rep rest h h0
    obtain ⟨content, hne, hnl, hl, hrep⟩ := matchItalicStar_eq l rep rest h
    have hshape : l = ('*' :: (content ++ ('*' :: []))) ++ rest := by
      rw [hl]; simp
    rw [hshape] at h0
    exact scRun_ne3_right _ _ h0

lemma passOK_strike : PassOK (fun _ => matchStrike) := by
  constructor
  · intro p l rep rest h
    obtain ⟨content, hne, hnl, hl, hrep⟩ := matchStrike_eq l rep rest h
    subst hl
    simp only [List.length_cons, List.length_append]
    omega
  · intro p l rep rest h
    obtain ⟨content, hne, hnl, hl, hrep⟩ := matchStrike_eq l rep rest h
    exact ⟨'s' :: '>' :: (content ++ ('<' :: '/' :: 's' :: '>' :: [])),
      by rw [hrep]; simp⟩
  · intro p l rep rest h
    obtain ⟨content, hne, hnl, hl, hrep⟩ := matchStrike_eq l rep rest h
    exact ⟨('<' :: 's' :: '>' :: []) ++ content ++ ('<' :: '/' :: 's' :: []),
      by rw [hrep]; simp⟩
  · intro p l rep rest h h0
    obtain ⟨content, hne, hnl, hl, hrep⟩ := matchStrike_eq l rep rest h
    have hshape : l = ('~' :: '~' :: []) ++ content ++ ('~' :: '~' :: rest) := by
      rw [hl]; simp
    rw [hshape] at h0
    have hcontent := scRun_ne3_mid _ _ _ h0
    rw [hrep, scRun_append, scRun_append,
      show scRun 0 ('<' :: 's' :: '>' :: []) = 0 from by decide,
      show scRun (scRun 0 content) ('<' :: '/' :: 's' :: '>' :: []) = 0 from by
        rw [scRun_lt_cons _ hcontent]; decide]
    decide
  · intro p l rep rest h h0
    obtain ⟨content, hne, hnl, hl, hrep⟩ := matchStrike_eq l rep rest h
    have hshape : l = ('~' :: '~' :: (content ++ ('~' :: '~' :: []))) ++ rest := by
      rw [hl]; simp
    rw [hshape] at h0
    exact scRun_ne3_right _ _ h0

lemma passOK_italicUnder : PassOK matchItalicUnder := by
  constructor
  · intro p l rep rest h
    obtain ⟨_, content, hne, hnl, hl, _, hrep⟩ := matchItalicUnder_eq p l rep rest h
    subst hl
    simp only [List.length_cons, List.length_append]
    omega
  · intro p l rep rest h
    obtain ⟨_, content, hne, hnl, hl, _, hrep⟩ := matchItalicUnder_eq p l rep rest h
    exact ⟨'i' :: '>' :: (content ++ ('<' :: '/' :: 'i' :: '>' :: [])),
      by rw [hrep]; simp⟩
  · intro p l rep rest h
    obtain ⟨_, content, hne, hnl, hl, _, hrep⟩ := matchItalicUnder_eq p l rep rest h
    exact ⟨('<' :: 'i' :: '>' :: []) ++ content ++ ('<' :: '/' :: 'i' :: []),
      by rw [hrep]; simp⟩
  · intro p l rep rest h h0
    obtain ⟨_, content, hne, hnl, hl, _, hrep⟩ := matchItalicUnder_eq p l rep rest h
    have hshape : l = ('_' :: []) ++ content ++ ('_' :: rest) := by
      rw [hl]; simp
    rw [hshape] at h0
    have hcontent := scRun_ne3_mid _ _ _ h0
    rw [hrep, scRun_append, scRun_append,
      show scRun 0 ('<' :: 'i' :: '>' :: []) = 0 from by decide,
      show scRun (scRun 0 content) ('<' :: '/' :: 'i' :: '>' :: []) = 0 from by
        rw [scRun_lt_cons _ hcontent]; decide]
    decide
  · intro p l rep rest h h0
    obtain ⟨_, content, hne, hnl, hl, _, hrep⟩ := matchItalicUnder_eq p l rep rest h
    have hshape : l = ('_' :: (content ++ ('_' :: []))) ++ rest := by
      rw [hl]; simp
    rw [hshape] at h0
    exact scRun_ne3_right _ _ h0

lemma passOK_inlineCode : PassOK (fun _ => matchInlineCode) := by
  constructor
  · intro p l rep rest h
    obtain ⟨content, hne, hnb, hl, hrep⟩ := matchInlineCode_eq l rep rest h
    subst hl
    simp only [List.length_cons, List.length_append]
    omega
  · intro p l rep rest h
    obtain ⟨content, hne, hnb, hl, hrep⟩ := matchInlineCode_eq l rep rest h
    exact ⟨'c' :: 'o' :: 'd' :: 'e' :: '>' ::
      (content ++ ('<' :: '/' :: 'c' :: 'o' :: 'd' :: 'e' :: '>' :: [])),
      by rw [hrep]; simp⟩
  · intro p l rep rest h
    obtain ⟨content, hne, hnb, hl, hrep⟩ := matchInlineCode_eq l rep rest h
    exact ⟨('<' :: 'c' :: 'o' :: 'd' :: 'e' :: '>' :: []) ++ content ++
      ('<' :: '/' :: 'c' :: 'o' :: 'd' :: 'e' :: []),
      by rw [hrep]; simp⟩
  · intro p l rep rest h h0
    obtain ⟨content, hne, hnb, hl, hrep⟩ := matchInlineCode_eq l rep rest h
    have hshape : l = (btk :: []) ++ content ++ (btk :: rest) := by
      rw [hl]; simp
    rw [hshape] at h0
    have hcontent := scRun_ne3_mid _ _ _ h0
    rw [hrep, scRun_append, scRun_append,
      show scRun 0 ('<' :: 'c' :: 'o' :: 'd' :: 'e' :: '>' :: []) = 0 from by decide,
      show scRun (scRun 0 content)
          ('<' :: '/' :: 'c' :: 'o' :: 'd' :: 'e' :: '>' :: []) = 0 from by
        rw [scRun_lt_cons _ hcontent]; decide]
    decide
  · intro p l rep rest h h0
    obtain ⟨content, hne, hnb, hl, hrep⟩ := matchInlineCode_eq l rep rest h
    have hshape : l = (btk :: (content ++ (btk :: []))) ++ rest := by
      rw [hl]; simp
    rw [hshape] at h0
    exact scRun_ne3_right _ _ h0

lemma passOK_fence : PassOK (fun _ => matchFence) := by
  constructor
  · intro p l rep rest h
    obtain ⟨hint, content, hw, hl, hrep⟩ := matchFence_eq l rep rest h
    subst hl
    simp only [List.length_cons, List.length_append]
    omega
  · intro p l rep rest h
    obtain ⟨hint, content, hw, hl, hrep⟩ := matchFence_eq l rep rest h
    exact ⟨'p' :: 'r' :: 'e' :: '>' ::
      (content ++ ('<' :: '/' :: 'p' :: 'r' :: 'e' :: '>' :: [])),
      by rw [hrep]; simp⟩
  · intro p l rep rest h
    obtain ⟨hint, content, hw, hl, hrep⟩ := matchFence_eq l rep rest h
    exact ⟨('<' :: 'p' :: 'r' :: 'e' :: '>' :: []) ++ content ++
      ('<' :: '/' :: 'p' :: 'r' :: 'e' :: []),
      by rw [hrep]; simp⟩
  · intro p l rep rest h h0
    obtain ⟨hint, content, hw, hl, hrep⟩ := matchFence_eq l rep rest h
    have hshape : l = (btk :: btk :: btk :: (hint ++ ('\n' :: []))) ++ content ++
        (btk :: btk :: btk :: rest) := by
      rw [hl]; simp
    rw [hshape] at h0
    have hcontent := scRun_ne3_mid _ _ _ h0
    rw [hrep, scRun_append, scRun_append,
      show scRun 0 ('<' :: 'p' :: 'r' :: 'e' :: '>' :: []) = 0 from by decide,
      show scRun (scRun 0 content)
          ('<' :: '/' :: 'p' :: 'r' :: 'e' :: '>' :: []) = 0 from by
        rw [scRun_lt_cons _ hcontent]; decide]
    decide
  · intro p l rep rest h h0
    obtain ⟨hint, content, hw, hl, hrep⟩ := matchFence_eq l rep rest h
    have hshape : l = (btk :: btk :: btk ::
        (hint ++ '\n' :: (content ++ (btk :: btk :: btk :: [])))) ++ rest := by
      rw [hl]; simp
    rw [hshape] at h0
    exact scRun_ne3_right _ _ h0

lemma passOK_link : PassOK (fun _ => matchLink) := by
  constructor
  · intro p l rep rest h
    obtain ⟨label, url, hlne, hune, hlb, hub, hl, hrep⟩ := matchLink_eq l rep rest h
    subst hl
    simp only [List.length_cons, List.length_append]
    omega
  · intro p l rep rest h
    obtain ⟨label, url, hlne, hune, hlb, hub, hl, hrep⟩ := matchLink_eq l rep rest h
    exact ⟨'a' :: ' ' :: 'h' :: 'r' :: 'e' :: 'f' :: '=' :: '"' ::
      (url ++ ('"' :: '>' :: []) ++ label ++ ('<' :: '/' :: 'a' :: '>' :: [])),
      by rw [hrep]; simp⟩
  · intro p l rep rest h
    obtain ⟨label, url, hlne, hune, hlb, hub, hl, hrep⟩ := matchLink_eq l rep rest h
    exact ⟨('<' :: 'a' :: ' ' :: 'h' :: 'r' :: 'e' :: 'f' :: '=' :: '"' :: []) ++
      url ++ ('"' :: '>' :: []) ++ label ++ ('<' :: '/' :: 'a' :: []),
      by rw [hrep]; simp⟩
  · intro p l rep rest h h0
    obtain ⟨label, url, hlne, hune, hlb, hub, hl, hrep⟩ := matchLink_eq l rep rest h
    have hshape1 : l = ('[' :: []) ++ label ++
        (']' :: '(' :: (url ++ ')' :: rest)) := by
      rw [hl]; simp
    have hlab3 : scRun 0 label ≠ 3 := scRun_ne3_mid _ _ _ (by
      rw [hshape1] at h0; exact h0)
    have hshape2 : l = ('[' :: (label ++ (']' :: '(' :: []))) ++ url ++
        (')' :: rest) := by
      rw [hl]; simp
    have hurl3 : scRun 0 url ≠ 3 := scRun_ne3_mid _ _ _ (by
      rw [hshape2] at h0; exact h0)
    rw [hrep, scRun_append, scRun_append, scRun_append, scRun_append,
      show scRun 0 ('<' :: 'a' :: ' ' :: 'h' :: 'r' :: 'e' :: 'f' :: '=' ::
        '"' :: []) = 0 from by decide]
    rw [show scRun (scRun 0 url) ('"' :: '>' :: []) = 0 from by
      rw [scRun_cons, show scStep (scRun 0 url) '"' = 0 from by
        simp [scStep, hurl3]]
      decide]
    rw [show scRun (scRun 0 label) ('<' :: '/' :: 'a' :: '>' :: []) = 0 from by
      rw [scRun_lt_cons _ hlab3]; decide]
    decide
  · intro p l rep rest h h0
    obtain ⟨label, url, hlne, hune, hlb, hub, hl, hrep⟩ := matchLink_eq l rep rest h
    have hshape : l = ('[' :: (label ++ ']' :: '(' :: (url ++ (')' :: [])))) ++
        rest := by
      rw [hl]; simp
    rw [hshape] at h0
    exact scRun_ne3_right _ _ h0

/-- `htmlEscape` distributes over list structure. -/
lemma htmlEscape_append (a b : List Char) :
    htmlEscape (a ++ b) = htmlEscape a ++ htmlEscape b := by
  simp [htmlEscape]

/-- `htmlEscape` on a cons. -/
lemma htmlEscape_cons (c : Char) (t : List Char) :
    htmlEscape (c :: t) = escapeChar c ++ htmlEscape t := by
  simp [htmlEscape]

/-- The escaped form of a single character never contains `<` (so a run of
the `<sc` detector over it stays in state 0). -/
lemma scRun_escapeChar (c : Char) : scRun 0 (escapeChar c) = 0 := by
  unfold escapeChar
  split_ifs with h1 h2 h3 h4 h5
  · decide
  · decide
  · decide
  · decide
  · decide
  · show scRun (scStep 0 c) [] = 0
    simp [scRun, scStep, h2]

/-- The escaping step leaves the `<sc` detector in state 0: its output
contains no `<` at all. -/
lemma scRun_htmlEscape : ∀ l : List Char, scRun 0 (htmlEscape l) = 0 := by
  intro l
  induction l with
  | nil => rfl
  | cons c t ih =>
    rw [htmlEscape_cons, scRun_append, scRun_escapeChar, ih]

/-- Count preservation through one pass: if every match redistributes the
occurrences of `x` between replacement and rest, the whole pass preserves
the count of `x`. -/
lemma reScan_count (m : Option Char → List Char → Option (List Char × List Char))
    (x : Char)
    (hc : ∀ p l rep rest, m p l = some (rep, rest) →
      rep.count x + rest.count x = l.count x) :
    ∀ (n : Nat) (p : Option Char) (l : List Char),
      (reScan m n p l).count x = l.count x := by
  intro n
  induction n with
  | zero => intro p l; rfl
  | succ n ih =>
    intro p l
    cases l with
    | nil => rfl
    | cons c cs =>
      cases hm : m p (c :: cs) with
      | none =>
        have hout : reScan m (n + 1) p (c :: cs)
            = c :: reScan m n (some c) cs := by
          show (match m p (c :: cs) with
            | some (rep, rest) => rep ++ reScan m n
                (((c :: cs).take ((c :: cs).length - rest.length)).getLast?) rest
            | none => c :: reScan m n (some c) cs)
            = c :: reScan m n (some c) cs
          rw [hm]
        rw [hout, List.count_cons, List.count_cons, ih]
      | some pr =>
        obtain ⟨rep, rest⟩ := pr
        have hout : reScan m (n + 1) p (c :: cs)
            = rep ++ reScan m n
                (((c :: cs).take ((c :: cs).length - rest.length)).getLast?)
                rest := by
          show (match m p (c :: cs) with
            | some (rep, rest) => rep ++ reScan m n
                (((c :: cs).take ((c :: cs).length - rest.length)).getLast?) rest
            | none => c :: reScan m n (some c) cs)
            = _
          rw [hm]
        rw [hout, List.count_append, ih, hc p (c :: cs) rep rest hm]

/-!
Per-pass count redistribution for `&` and `;` — the two characters that
make up the escape entities.  None of the deleted delimiters and none of
the inserted tag characters is `&` or `;`, so both counts are untouched by
every pass after the escaping step.
-/

lemma count_fence (x : Char) (hx : x = '&' ∨ x = ';') :
    ∀ p l rep rest, (fun _ : Option Char => matchFence) p l = some (rep, rest) →
      rep.count x + rest.count x = l.count x := by
  intro p l rep rest h
  obtain ⟨hint, content, hw, hl, hrep⟩ := matchFence_eq l rep rest h
  subst hl
  subst hrep
  have hhint : hint.count x = 0 := List.count_eq_zero.mpr (fun hmem => by
    have hwc := hw x hmem
    rcases hx with hx | hx <;> subst hx <;> simp [isWordChar, Char.isAlphanum,
      Char.isAlpha, Char.isDigit, Char.isUpper, Char.isLower] at hwc)
  rcases hx with hx | hx <;> subst hx <;>
    simp [List.count_append, List.count_cons, hhint, btk]

lemma count_inlineCode (x : Char) (hx : x = '&' ∨ x = ';') :
    ∀ p l rep rest, (fun _ : Option Char => matchInlineCode) p l = some (rep, rest) →
      rep.count x + rest.count x = l.count x := by
  intro p l rep rest h
  obtain ⟨content, hne, hnb, hl, hrep⟩ := matchInlineCode_eq l rep rest h
  subst hl
  subst hrep
  rcases hx with hx | hx <;> subst hx <;>
    simp [List.count_append, List.count_cons, btk]

lemma count_boldStar (x : Char) (hx : x = '&' ∨ x = ';') :
    ∀ p l rep rest, (fun _ : Option Char => matchBoldStar) p l = some (rep, rest) →
      rep.count x + rest.count x = l.count x := by
  intro p l rep rest h
  obtain ⟨content, hne, hnl, hl, hrep⟩ := matchBoldStar_eq l rep rest h
  subst hl
  subst hrep
  rcases hx with hx | hx <;> subst hx <;>
    simp [List.count_append, List.count_cons]

lemma count_boldUnder (x : Char) (hx : x = '&' ∨ x = ';') :
    ∀ p l rep rest, (fun _ : Option Char => matchBoldUnder) p l = some (rep, rest) →
      rep.count x + rest.count x = l.count x := by
  intro p l rep rest h
  obtain ⟨content, hne, hnl, hl, hrep⟩ := matchBoldUnder_eq l rep rest h
  subst hl
  subst hrep
  rcases hx with hx | hx <;> subst hx <;>
    simp [List.count_append, List.count_cons]

lemma count_italicStar (x : Char) (hx : x = '&' ∨ x = ';') :
    ∀ p l rep rest, (fun _ : Option Char => matchItalicStar) p l = some (rep, rest) →
      rep.count x + rest.count x = l.count x := by
  intro p l rep rest h
  obtain ⟨content, hne, hnl, hl, hrep⟩ := matchItalicStar_eq l rep rest h
  subst hl
  subst hrep
  rcases hx with hx | hx <;> subst hx <;>
    simp [List.count_append, List.count_cons]

lemma count_italicUnder (x : Char) (hx : x = '&' ∨ x = ';') :
    ∀ p l rep rest, matchItalicUnder p l = some (rep, rest) →
      rep.count x + rest.count x = l.count x := by
  intro p l rep rest h
  obtain ⟨_, content, hne, hnl, hl, _, hrep⟩ := matchItalicUnder_eq p l rep rest h
  subst hl
  subst hrep
  rcases hx with hx | hx <;> subst hx <;>
    simp [List.count_append, List.count_cons]

lemma count_strike (x : Char) (hx : x = '&' ∨ x = ';') :
    ∀ p l rep rest, (fun _ : Option Char => matchStrike) p l = some (rep, rest) →
      rep.count x + rest.count x = l.count x := by
  intro p l rep rest h
  obtain ⟨content, hne, hnl, hl, hrep⟩ := matchStrike_eq l rep rest h
  subst hl
  subst hrep
  rcases hx with hx | hx <;> subst hx <;>
    simp [List.count_append, List.count_cons]

lemma count_link (x : Char) (hx : x = '&' ∨ x = ';') :
    ∀ p l rep rest, (fun _ : Option Char => matchLink) p l = some (rep, rest) →
      rep.count x + rest.count x = l.count x := by
  intro p l rep rest h
  obtain ⟨label, url, hlne, hune, hlb, hub, hl, hrep⟩ := matchLink_eq l rep rest h
  subst hl
  subst hrep
  rcases hx with hx | hx <;> subst hx <;>
    simp [List.count_append, List.count_cons] <;> omega

/-- Count preservation over the seven markdown passes, for `&` and `;`. -/
lemma passesAfterEscape_count (x : Char) (hx : x = '&' ∨ x = ';') :
    ∀ l : List Char, (passesAfterEscape l).count x = l.count x := by
  intro l
  unfold passesAfterEscape runPass runPassUnder
  rw [reScan_count _ x (count_link x hx),
    reScan_count _ x (count_strike x hx),
    reScan_count _ x (count_italicUnder x hx),
    reScan_count _ x (count_italicStar x hx),
    reScan_count _ x (count_boldUnder x hx),
    reScan_count _ x (count_boldStar x hx),
    reScan_count _ x (count_inlineCode x hx),
    reScan_count _ x (count_fence x hx)]

/-!
Completeness lemmas: on inputs of the matched shape the matchers fire, and
on other heads they do not.  These drive the universal statements about
fenced code blocks and italic spans.
-/

lemma matchFence_none_of_head (c : Char) (hc : c ≠ btk) (X : List Char) :
    matchFence (c :: X) = none := by
  cases hm : matchFence (c :: X) with
  | none => rfl
  | some pr =>
    obtain ⟨rep, rest⟩ := pr
    obtain ⟨hint, content, _, hl, _⟩ := matchFence_eq _ _ _ hm
    injection hl with h1 _
    exact absurd h1 hc

lemma matchItalicStar_none_of_head (c : Char) (hc : c ≠ '*') (X : List Char) :
    matchItalicStar (c :: X) = none := by
  cases hm : matchItalicStar (c :: X) with
  | none => rfl
  | some pr =>
    obtain ⟨rep, rest⟩ := pr
    obtain ⟨content, _, _, hl, _⟩ := matchItalicStar_eq _ _ _ hm
    injection hl with h1 _
    exact absurd h1 hc

lemma matchItalicUnder_none_of_head (p : Option Char) (c : Char)
    (hc : c ≠ '_') (X : List Char) : matchItalicUnder p (c :: X) = none := by
  cases hm : matchItalicUnder p (c :: X) with
  | none => rfl
  | some pr =>
    obtain ⟨rep, rest⟩ := pr
    obtain ⟨_, content, _, _, hl, _, _⟩ := matchItalicUnder_eq p _ _ _ hm
    injection hl with h1 _
    exact absurd h1 hc

/-- The `(?<!\w)` lookbehind blocks a match right after a word character. -/
lemma matchItalicUnder_word_prev (p : Option Char) (hp : wordOpt p = true)
    (X : List Char) : matchItalicUnder p ('_' :: X) = none := by
  unfold matchItalicUnder
  split
  · rw [if_pos hp]
  · rfl

/-- Without any underscore ahead, the underscore closer never fires. -/
lemma lazyScan_closerUnder_none : ∀ l : List Char, '_' ∉ l →
    lazyScan closerUnder l = none := by
  intro l
  induction l with
  | nil => intro _; rfl
  | cons c cs ih =>
    intro hl
    have hcs : '_' ∉ cs := fun hx => hl (by simp [hx])
    have hclose : closerUnder cs = none := by
      cases cs with
      | nil => rfl
      | cons c2 cs2 =>
        have hc2 : ¬c2 = '_' := fun hx => hcs (by simp [hx])
        unfold closerUnder
        rw [show dropDelim ('_' :: []) (c2 :: cs2) = none from by
          simp [dropDelim, hc2]]
    show (if c = '\n' then none else
      match closerUnder cs with
      | some r => some ([c], r)
      | none =>
        match lazyScan closerUnder cs with
        | some p => some (c :: p.1, p.2)
        | none => none) = none
    rw [hclose, ih hcs]
    simp

/-- With no underscore in the remainder, an underscore match attempt fails
whatever the lookbehind says. -/
lemma matchItalicUnder_no_closer (p : Option Char) (rest : List Char)
    (hr : '_' ∉ rest) : matchItalicUnder p ('_' :: rest) = none := by
  unfold matchItalicUnder
  split
  next rest0 heq =>
    injection heq with _ h2
    subst h2
    by_cases hp : wordOpt p = true
    · rw [if_pos hp]
    · rw [if_neg hp, lazyScan_closerUnder_none rest hr]
  next => rfl

/-- Evaluation of the fence matcher on a well-formed fenced block. -/
lemma matchFence_complete (hint content rest : List Char)
    (hhint : ∀ c ∈ hint, isWordChar c = true)
    (hcontent : hasTripleTick content = false)
    (hlast : content.getLast? ≠ some btk) :
    matchFence (btk :: btk :: btk ::
        (hint ++ '\n' :: (content ++ btk :: btk :: btk :: rest)))
      = some (('<' :: 'p' :: 'r' :: 'e' :: '>' :: []) ++ content ++
          ('<' :: '/' :: 'p' :: 'r' :: 'e' :: '>' :: []), rest) := by
  have e1 : (hint ++ '\n' :: (content ++ btk :: btk :: btk :: rest)).dropWhile
      isWordChar = '\n' :: (content ++ btk :: btk :: btk :: rest) := by
    rw [dropWhile_append_all isWordChar hint _ hhint, List.dropWhile_cons,
      if_neg (by decide)]
  have e2 := splitTriple_complete content rest hcontent hlast
  unfold matchFence
  split
  next c1 c2 c3 rest0 heq =>
    injection heq with g1 heq
    injection heq with g2 heq
    injection heq with g3 g4
    subst g1; subst g2; subst g3; subst g4
    rw [if_pos (by decide), e1]
    split
    next afterNl heq2 =>
      injection heq2 with _ h2
      subst h2
      rw [e2]
    next h2 => exact absurd rfl (by exact fun hh => h2 _ hh)
  next h =>
    exact absurd rfl (by exact fun hh => h btk btk btk _ hh)

/-- Evaluation of the star-italic matcher on a well-formed span. -/
lemma matchItalicStar_complete (content tail : List Char)
    (hne : content ≠ []) (hnl : '\n' ∉ content) (hstar : '*' ∉ content) :
    matchItalicStar ('*' :: (content ++ '*' :: tail))
      = some (('<' :: 'i' :: '>' :: []) ++ content ++
          ('<' :: '/' :: 'i' :: '>' :: []), tail) := by
  have hls : lazyScan (dropDelim ('*' :: [])) (content ++ '*' :: tail)
      = some (content, tail) := by
    refine lazyScan_complete _ ('*' :: tail) tail content hne hnl ?_ ?_
    · intro a b hab ha hb
      cases b with
      | nil => exact absurd rfl hb
      | cons b0 b' =>
        have hb0 : ¬b0 = '*' := fun hx => hstar (by rw [hab, hx]; simp)
        show dropDelim ('*' :: []) (b0 :: (b' ++ '*' :: tail)) = none
        simp [dropDelim, hb0]
    · exact dropDelim_self ('*' :: []) tail
  unfold matchItalicStar
  split
  next rest0 heq =>
    injection heq with _ h2
    subst h2
    rw [hls]
  next h => exact absurd rfl (by exact fun hh => h _ hh)

/-- Evaluation of the underscore-italic matcher on a well-formed span with
a non-word character after the closing delimiter. -/
lemma matchItalicUnder_complete (p : Option Char) (hp : wordOpt p = false)
    (content : List Char) (y : Char) (tail : List Char)
    (hne : content ≠ []) (hnl : '\n' ∉ content) (hund : '_' ∉ content)
    (hy : isWordChar y = false) :
    matchItalicUnder p ('_' :: (content ++ '_' :: y :: tail))
      = some (('<' :: 'i' :: '>' :: []) ++ content ++
          ('<' :: '/' :: 'i' :: '>' :: []), y :: tail) := by
  have hok : closerUnder ('_' :: y :: tail) = some (y :: tail) := by
    unfold closerUnder
    rw [show dropDelim ('_' :: []) ('_' :: y :: tail) = some (y :: tail) from
      dropDelim_self ('_' :: []) (y :: tail)]
    dsimp only
    rw [if_neg (by simp [hy])]
  have hls : lazyScan closerUnder (content ++ '_' :: y :: tail)
      = some (content, y :: tail) := by
    refine lazyScan_complete _ ('_' :: y :: tail) (y :: tail) content hne hnl
      ?_ hok
    · intro a b hab ha hb
      cases b with
      | nil => exact absurd rfl hb
      | cons b0 b' =>
        have hb0 : ¬b0 = '_' := fun hx => hund (by rw [hab, hx]; simp)
        show closerUnder (b0 :: (b' ++ '_' :: y :: tail)) = none
        unfold closerUnder
        rw [show dropDelim ('_' :: []) (b0 :: (b' ++ '_' :: y :: tail)) = none
          from by simp [dropDelim, hb0]]
  unfold matchItalicUnder
  split
  next rest0 heq =>
    injection heq with _ h2
    subst h2
    rw [if_neg (by simp [hp]), hls]
  next h => exact absurd rfl (by exact fun hh => h _ hh)

/-- Prev-threaded copying for the underscore pass: a segment without
underscores is copied verbatim, and the lookbehind afterwards is the
segment's last character. -/
lemma reScanUnder_copy : ∀ (seg l : List Char) (n : Nat) (p : Option Char),
    '_' ∉ seg →
    reScan matchItalicUnder (seg.length + n) p (seg ++ l)
      = seg ++ reScan matchItalicUnder n (prevAfter seg p) l := by
  intro seg
  induction seg with
  | nil => intro l n p _; simp [prevAfter]
  | cons c cs ih =>
    intro l n p hseg
    have hc : c ≠ '_' := fun hx => hseg (by simp [hx])
    have hnone : matchItalicUnder p ((c :: cs) ++ l) = none :=
      matchItalicUnder_none_of_head p c hc (cs ++ l)
    have hfuel : (c :: cs).length + n = (cs.length + n) + 1 := by
      simp only [List.length_cons]
      omega
    rw [hfuel]
    have step : reScan matchItalicUnder ((cs.length + n) + 1) p ((c :: cs) ++ l)
        = c :: reScan matchItalicUnder (cs.length + n) (some c) (cs ++ l) := by
      show (match matchItalicUnder p ((c :: cs) ++ l) with
        | some (rep, rest) => rep ++ reScan matchItalicUnder (cs.length + n)
            ((((c :: cs) ++ l).take
              (((c :: cs) ++ l).length - rest.length)).getLast?) rest
        | none => c :: reScan matchItalicUnder (cs.length + n) (some c) (cs ++ l))
        = c :: reScan matchItalicUnder (cs.length + n) (some c) (cs ++ l)
      rw [hnone]
    rw [step, ih l n (some c) (fun hx => hseg (by simp [hx])), prevAfter_cons]
    rfl

/-- The underscore pass is the identity on a list without underscores. -/
lemma reScanUnder_id : ∀ (seg : List Char), '_' ∉ seg →
    ∀ (n : Nat) (p : Option Char), seg.length ≤ n →
    reScan matchItalicUnder n p seg = seg := by
  intro seg
  induction seg with
  | nil =>
    intro _ n p _
    cases n <;> rfl
  | cons c cs ih =>
    intro hseg n p hn
    have hc : c ≠ '_' := fun hx => hseg (by simp [hx])
    cases n with
    | zero => simp at hn
    | succ n =>
      have step : reScan matchItalicUnder (n + 1) p (c :: cs)
          = c :: reScan matchItalicUnder n (some c) cs := by
        show (match matchItalicUnder p (c :: cs) with
          | some (rep, rest) => rep ++ reScan matchItalicUnder n
              (((c :: cs).take ((c :: cs).length - rest.length)).getLast?) rest
          | none => c :: reScan matchItalicUnder n (some c) cs)
          = c :: reScan matchItalicUnder n (some c) cs
        rw [matchItalicUnder_none_of_head p c hc cs]
      rw [step, ih (fun hx => hseg (by simp [hx])) n (some c) (by
        simp only [List.length_cons] at hn
        omega)]

/-- When the next character is not an underscore, the underscore pass does
not depend on the lookbehind. -/
lemma reScanUnder_prev_head (n : Nat) (p q : Option Char) (y : Char)
    (hy : y ≠ '_') (rest : List Char) :
    reScan matchItalicUnder n p (y :: rest)
      = reScan matchItalicUnder n q (y :: rest) := by
  cases n with
  | zero => rfl
  | succ n =>
    show (match matchItalicUnder p (y :: rest) with
      | some (rep, r) => rep ++ reScan matchItalicUnder n
          (((y :: rest).take ((y :: rest).length - r.length)).getLast?) r
      | none => y :: reScan matchItalicUnder n (some y) rest)
      = (match matchItalicUnder q (y :: rest) with
      | some (rep, r) => rep ++ reScan matchItalicUnder n
          (((y :: rest).take ((y :: rest).length - r.length)).getLast?) r
      | none => y :: reScan matchItalicUnder n (some y) rest)
    rw [matchItalicUnder_none_of_head p y hy rest,
      matchItalicUnder_none_of_head q y hy rest]

/-- One unfolding of the scan at a successful match. -/
lemma reScan_step (m : Option Char → List Char → Option (List Char × List Char))
    (n : Nat) (p : Option Char) (c : Char) (cs rep rest : List Char)
    (hm : m p (c :: cs) = some (rep, rest)) :
    reScan m (n + 1) p (c :: cs)
      = rep ++ reScan m n
          (((c :: cs).take ((c :: cs).length - rest.length)).getLast?) rest := by
  show (match m p (c :: cs) with
    | some (rep, rest) => rep ++ reScan m n
        (((c :: cs).take ((c :: cs).length - rest.length)).getLast?) rest
    | none => c :: reScan m n (some c) cs)
    = _
  rw [hm]

/-- One unfolding of the scan at a failed match. -/
lemma reScan_step_none
    (m : Option Char → List Char → Option (List Char × List Char))
    (n : Nat) (p : Option Char) (c : Char) (cs : List Char)
    (hm : m p (c :: cs) = none) :
    reScan m (n + 1) p (c :: cs) = c :: reScan m n (some c) cs := by
  show (match m p (c :: cs) with
    | some (rep, rest) => rep ++ reScan m n
        (((c :: cs).take ((c :: cs).length - rest.length)).getLast?) rest
    | none => c :: reScan m n (some c) cs)
    = c :: reScan m n (some c) cs
  rw [hm]

/-- A service oracle whose checker responds with a single message. -/
def svcSample : Services :=
  { detectRun := fun _ => some "English"
    checkRun := fun _ _ => { messages := some [{ content := "Looks correct." }] } }

/-- A service oracle whose checker responds with an empty message list. -/
def svcEmptyMsgs : Services :=
  { detectRun := fun _ => none
    checkRun := fun _ _ => { messages := some [] } }

/-- A service oracle whose checker response carries no message list at all. -/
def svcNoMsgs : Services :=
  { detectRun := fun _ => none
    checkRun := fun _ _ => { messages := none } }

/-- Claim C1: for every input text, `process_text(text)` equals
`check_text(text, get_language(text))`, and the service-call trace is
exactly one detector call followed by one checker call whose session is
seeded with the detected tag unmodified — no branching, retry or caching
between the two calls. -/
theorem claim1_pipeline_sequential_composition
    (svc : Services) (text : String) :
    process_text svc text
      = ((check_text svc text (get_language svc text).1).1,
         [Call.detect (detectPrompt text),
          Call.check (checkPrompt text) (get_language svc text).1]) := rfl

/-- Claim C2: `check_text` returns the content of the final message of the
service response when at least one message is present, and returns exactly
the string "Unable to process the text." when the message list is empty or
absent; both are ordinary return values of the total function. -/
theorem claim2_checker_last_message_or_fallback
    (svc : Services) (text : String) (lang : Option String) :
    (∀ (msgs : List Message) (hne : msgs ≠ []),
        (svc.checkRun (checkPrompt text) lang).messages = some msgs →
          (check_text svc text lang).1 = (msgs.getLast hne).content)
    ∧ ((svc.checkRun (checkPrompt text) lang).messages = some [] →
          (check_text svc text lang).1 = "Unable to process the text.")
    ∧ ((svc.checkRun (checkPrompt text) lang).messages = none →
          (check_text svc text lang).1 = "Unable to process the text.") := by
  refine ⟨?_, ?_, ?_⟩
  · intro msgs hne hmsgs
    simp only [check_text, hmsgs, List.getLast?_eq_getLast _ hne, fallbackText]
  · intro hmsgs
    simp only [check_text, hmsgs, List.getLast?_nil, fallbackText]
  · intro hmsgs
    simp only [check_text, hmsgs, fallbackText]

/-- Witness for C2 at concrete service oracles: a one-message response
yields that message's content; zero-message and absent-message responses
yield the fixed fallback string. -/
theorem claim2_witness :
    (check_text svcSample "hi" (some "English")).1 = "Looks correct."
    ∧ (check_text svcEmptyMsgs "hi" (some "English")).1
        = "Unable to process the text."
    ∧ (check_text svcNoMsgs "hi" none).1 = "Unable to process the text." := by
  refine ⟨?_, ?_, ?_⟩
  · exact (claim2_checker_last_message_or_fallback svcSample "hi"
      (some "English")).1 [{ content := "Looks correct." }] (by simp) rfl
  · exact (claim2_checker_last_message_or_fallback svcEmptyMsgs "hi"
      (some "English")).2.1 rfl
  · exact (claim2_checker_last_message_or_fallback svcNoMsgs "hi" none).2.2 rfl

/-- Claim C3: the Markup Converter is a total, deterministic, pure function
of its input string: every input (empty, all-markup, no-markup,
malformed/unbalanced, HTML-special-character-containing) yields a result
string.  Totality is witnessed by the function being definable as a Lean
function together with concrete evaluations on each listed input class. -/
theorem claim3_converter_total :
    (∀ s : String, ∃ r : String, markdown_to_telegram_html s = r)
    ∧ markdown_to_telegram_html "" = ""
    ∧ markdown_to_telegram_html ("plain text") = "plain text"
    ∧ markdown_to_telegram_html ("***") = "<i>*</i>"
    ∧ markdown_to_telegram_html ("**unclosed") = "**unclosed"
    ∧ markdown_to_telegram_html ("``") = "``"
    ∧ markdown_to_telegram_html ("a & b <c>") = "a &amp; b &lt;c&gt;" := by
  refine ⟨fun s => ⟨_, rfl⟩, ?_, ?_, ?_, ?_, ?_, ?_⟩ <;> decide

/-- Claim C6: on input "Use **bold** and `code` here" the converter's
output contains `<b>bold</b>` and `<code>code</code>` and contains no
literal asterisk and no literal backtick. -/
theorem claim6_round_trip_sample :
    markdown_to_telegram_html ("Use **bold** and `code` here")
      = "Use <b>bold</b> and <code>code</code> here"
    ∧ ((markdown_to_telegram_html ("Use **bold** and `code` here")).data.all
        (fun c => !(c == '*') && !(c == btk))) = true
    ∧ (∃ a b, (markdown_to_telegram_html ("Use **bold** and `code` here")).data
        = a ++ ('<' :: 'b' :: '>' :: 'b' :: 'o' :: 'l' :: 'd' ::
                '<' :: '/' :: 'b' :: '>' :: []) ++ b)
    ∧ (∃ a b, (markdown_to_telegram_html ("Use **bold** and `code` here")).data
        = a ++ ('<' :: 'c' :: 'o' :: 'd' :: 'e' :: '>' :: 'c' :: 'o' :: 'd' ::
                'e' :: '<' :: '/' :: 'c' :: 'o' :: 'd' :: 'e' :: '>' :: []) ++ b) := by
  refine ⟨by decide, by decide, ⟨"Use ".data, " and <code>code</code> here".data,
    by decide⟩, ⟨"Use <b>bold</b> and ".data, " here".data, by decide⟩⟩

/-- Claim C7: the checker invoked with an empty or undefined (`None`)
language tag is a total local computation that still issues exactly one
external request whose session is seeded with that tag value as given. -/
theorem claim7_checker_tolerates_empty_language
    (svc : Services) (text : String) :
    (check_text svc text none).2 = [Call.check (checkPrompt text) none]
    ∧ (check_text svc text (some "")).2
        = [Call.check (checkPrompt text) (some "")]
    ∧ (∃ r, check_text svc text none = r)
    ∧ (∃ r, check_text svc text (some "") = r) :=
  ⟨rfl, rfl, ⟨_, rfl⟩, ⟨_, rfl⟩⟩

/-- The escaped form of a single character contains no quote character of
either kind. -/
lemma escapeChar_no_quote (c : Char) :
    (escapeChar c).count '"' = 0 ∧ (escapeChar c).count '\'' = 0 := by
  unfold escapeChar
  split_ifs with h1 h2 h3 h4 h5
  · exact ⟨by decide, by decide⟩
  · exact ⟨by decide, by decide⟩
  · exact ⟨by decide, by decide⟩
  · exact ⟨by decide, by decide⟩
  · exact ⟨by decide, by decide⟩
  · constructor
    · rw [List.count_cons]
      simp [h4]
    · rw [List.count_cons]
      simp [h5]

/-- Claim C10: the escaping step escapes more than the three characters the
spec lists: every double quote becomes `&quot;` and every single quote
becomes `&#x27;`, and neither quote character survives into the escaped
output.  The final conjunct shows the behaviour through the full
converter. -/
theorem claim10_quotes_also_escaped :
    (∀ a b : List Char, htmlEscape (a ++ '"' :: b)
        = htmlEscape a ++ ('&' :: 'q' :: 'u' :: 'o' :: 't' :: ';' :: [])
            ++ htmlEscape b)
    ∧ (∀ a b : List Char, htmlEscape (a ++ '\'' :: b)
        = htmlEscape a ++ ('&' :: '#' :: 'x' :: '2' :: '7' :: ';' :: [])
            ++ htmlEscape b)
    ∧ (∀ l : List Char, (htmlEscape l).count '"' = 0)
    ∧ (∀ l : List Char, (htmlEscape l).count '\'' = 0)
    ∧ markdown_to_telegram_html ("a\"b'c") = "a&quot;b&#x27;c" := by
  refine ⟨?_, ?_, ?_, ?_, by decide⟩
  · intro a b
    have h : escapeChar '"' = ('&' :: 'q' :: 'u' :: 'o' :: 't' :: ';' :: []) := by
      decide
    rw [htmlEscape_append, htmlEscape_cons, h, List.append_assoc]
  · intro a b
    have h : escapeChar '\'' = ('&' :: '#' :: 'x' :: '2' :: '7' :: ';' :: []) := by
      decide
    rw [htmlEscape_append, htmlEscape_cons, h, List.append_assoc]
  · intro l
    induction l with
    | nil => rfl
    | cons c t ih =>
      rw [htmlEscape_cons, List.count_append, (escapeChar_no_quote c).1, ih]
  · intro l
    induction l with
    | nil => rfl
    | cons c t ih =>
      rw [htmlEscape_cons, List.count_append, (escapeChar_no_quote c).2, ih]

/-- The characters of the converter's output are the result of the seven
passes applied to the escaped input. -/
lemma markdown_data (s : String) :
    (markdown_to_telegram_html s).data
      = passesAfterEscape (htmlEscape s.data) := rfl

/-- Claim C4: escaping of `<`, `>`, `&` is the converter's first step,
before any markdown-to-tag conversion (second conjunct: the escaped text
leaves the `<sc` detector in state 0, i.e. contains no `<` at all), so for
every input the final output never contains the character sequence `<sc` —
in particular never a live `<script` tag — while inputs containing
`<script>` yield the escaped literal `&lt;script&gt;` under any
surrounding markdown. -/
theorem claim4_escape_first_no_live_tag :
    (∀ s : String, containsSC (markdown_to_telegram_html s).data = false)
    ∧ (∀ l : List Char, scRun 0 (htmlEscape l) = 0)
    ∧ markdown_to_telegram_html ("<script>") = "&lt;script&gt;"
    ∧ markdown_to_telegram_html ("**<script>**") = "<b>&lt;script&gt;</b>"
    ∧ markdown_to_telegram_html ("`<script>`")
        = "<code>&lt;script&gt;</code>" := by
  refine ⟨?_, scRun_htmlEscape, by decide, by decide, by decide⟩
  intro s
  have h0 : scRun 0 (htmlEscape s.data) ≠ 3 := by
    rw [scRun_htmlEscape]
    decide
  have t1 : scRun 0 (runPass matchFence (htmlEscape s.data)) ≠ 3 :=
    reScan_scan _ passOK_fence _ none _ 0 h0
  have t2 : scRun 0 (runPass matchInlineCode
      (runPass matchFence (htmlEscape s.data))) ≠ 3 :=
    reScan_scan _ passOK_inlineCode _ none _ 0 t1
  have t3 : scRun 0 (runPass matchBoldStar (runPass matchInlineCode
      (runPass matchFence (htmlEscape s.data)))) ≠ 3 :=
    reScan_scan _ passOK_boldStar _ none _ 0 t2
  have t4 : scRun 0 (runPass matchBoldUnder (runPass matchBoldStar
      (runPass matchInlineCode (runPass matchFence (htmlEscape s.data))))) ≠ 3 :=
    reScan_scan _ passOK_boldUnder _ none _ 0 t3
  have t5 : scRun 0 (runPass matchItalicStar (runPass matchBoldUnder
      (runPass matchBoldStar (runPass matchInlineCode
        (runPass matchFence (htmlEscape s.data)))))) ≠ 3 :=
    reScan_scan _ passOK_italicStar _ none _ 0 t4
  have t6 : scRun 0 (runPassUnder (runPass matchItalicStar
      (runPass matchBoldUnder (runPass matchBoldStar (runPass matchInlineCode
        (runPass matchFence (htmlEscape s.data))))))) ≠ 3 :=
    reScan_scan _ passOK_italicUnder _ none _ 0 t5
  have t7 : scRun 0 (runPass matchStrike (runPassUnder
      (runPass matchItalicStar (runPass matchBoldUnder (runPass matchBoldStar
        (runPass matchInlineCode (runPass matchFence
          (htmlEscape s.data)))))))) ≠ 3 :=
    reScan_scan _ passOK_strike _ none _ 0 t6
  have t8 : scRun 0 (runPass matchLink (runPass matchStrike (runPassUnder
      (runPass matchItalicStar (runPass matchBoldUnder (runPass matchBoldStar
        (runPass matchInlineCode (runPass matchFence
          (htmlEscape s.data))))))))) ≠ 3 :=
    reScan_scan _ passOK_link _ none _ 0 t7
  have t9 : scRun 0 (passesAfterEscape (htmlEscape s.data)) ≠ 3 := t8
  unfold containsSC
  rw [markdown_data s]
  exact beq_eq_false_iff_ne.mpr t9

/-- Claim C5: the converter is exactly the fixed ordered pipeline
escape → fenced-code → inline-code → bold (`**`, `__`) → italic (`*`, `_`)
→ strikethrough → link, each pass applied to the full output of the
previous one (first conjunct, definitional); and no later pass re-escapes
the escaping pass's output: the counts of `&` and of `;` — the characters
forming every escape entity — are preserved exactly by the seven
markdown passes. -/
theorem claim5_pass_order_and_no_reescape :
    (∀ s : String, (markdown_to_telegram_html s).data
        = runPass matchLink (runPass matchStrike (runPassUnder
            (runPass matchItalicStar (runPass matchBoldUnder
              (runPass matchBoldStar (runPass matchInlineCode
                (runPass matchFence (htmlEscape s.data)))))))))
    ∧ (∀ l : List Char, (passesAfterEscape l).count '&' = l.count '&')
    ∧ (∀ l : List Char, (passesAfterEscape l).count ';' = l.count ';') := by
  refine ⟨?_, passesAfterEscape_count '&' (Or.inl rfl),
    passesAfterEscape_count ';' (Or.inr rfl)⟩
  intro s
  rfl

/-- Claim C8: a fenced code block — triple backtick, an optional word-only
language hint, a newline, content running up to the next triple backtick —
is converted to the content wrapped in `<pre>`/`</pre>`.  The block may be
preceded by any backtick-free text (copied verbatim) and followed by
arbitrary text (scanned on); the hypotheses pin the next triple backtick
to be the named closer, exactly as the non-greedy `(.*?)` does. -/
theorem claim8_fenced_block_to_pre (pre hint content rest : List Char)
    (hpre : ∀ c ∈ pre, c ≠ btk)
    (hhint : ∀ c ∈ hint, isWordChar c = true)
    (hcontent : hasTripleTick content = false)
    (hlast : content.getLast? ≠ some btk) :
    runPass matchFence (pre ++ btk :: btk :: btk ::
        (hint ++ '\n' :: (content ++ btk :: btk :: btk :: rest)))
      = pre ++ ('<' :: 'p' :: 'r' :: 'e' :: '>' :: []) ++ content ++
        ('<' :: '/' :: 'p' :: 'r' :: 'e' :: '>' :: []) ++
        runPass matchFence rest := by
  have hm := matchFence_complete hint content rest hhint hcontent hlast
  have hcond : ∀ a b, pre = a ++ b → b ≠ [] →
      matchFence (b ++ btk :: btk :: btk ::
        (hint ++ '\n' :: (content ++ btk :: btk :: btk :: rest))) = none := by
    intro a b hab hb
    cases b with
    | nil => exact absurd rfl hb
    | cons b0 b' =>
      have hb0 : b0 ≠ btk := hpre b0 (by rw [hab]; simp)
      exact matchFence_none_of_head b0 hb0 _
  unfold runPass
  rw [List.length_append]
  rw [reScan_copy matchFence pre _ _ none hcond]
  rw [show (btk :: btk :: btk ::
      (hint ++ '\n' :: (content ++ btk :: btk :: btk :: rest))).length
    = (btk :: btk ::
      (hint ++ '\n' :: (content ++ btk :: btk :: btk :: rest))).length + 1
    from rfl]
  rw [reScan_step _ _ none btk _ _ rest hm]
  rw [reScan_prev_irrel matchFence _ _ none rest]
  rw [reScan_fuel (fun _ => matchFence) passOK_fence.consume _ none rest (by
    simp only [List.length_cons, List.length_append]
    omega)]
  simp [runPass, List.append_assoc]

/-- Witness for C8: a concrete fenced block with hint `py`, multi-line
content, a backtick-free prefix and trailing text. -/
theorem claim8_witness :
    runPass matchFence ("see: ".data ++ btk :: btk :: btk ::
        ("py".data ++ '\n' :: ("print(1)\n".data ++ btk :: btk :: btk ::
          " tail".data)))
      = "see: ".data ++ ('<' :: 'p' :: 'r' :: 'e' :: '>' :: []) ++
        "print(1)\n".data ++ ('<' :: '/' :: 'p' :: 'r' :: 'e' :: '>' :: []) ++
        runPass matchFence (" tail".data) :=
  claim8_fenced_block_to_pre "see: ".data "py".data "print(1)\n".data
    " tail".data (by decide) (by decide) (by decide) (by decide)

/-- Claim C9: in the italic passes, a `*...*` span converts with no
boundary condition — here shown with word characters immediately on both
sides (first conjunct); a `_..._` span converts when the characters
outside both delimiters are non-word or absent (second conjunct, at the
start of the string, with an ASCII non-word character after the closer —
the ASCII bound keeps the `(?!\w)` lookahead inside the range where the
`\w` model is exact); and an underscore span sitting in word-character
context (e.g. inside an identifier with underscores) is left entirely
unconverted (third conjunct — here no underscore follows, so the outcome
does not depend on how `\w` classifies any non-ASCII character). -/
theorem claim9_italic_underscore_boundary :
    (∀ (x y : Char) (content rest : List Char),
      isWordChar x = true → isWordChar y = true →
      content ≠ [] → '\n' ∉ content → '*' ∉ content →
      runPass matchItalicStar (x :: '*' :: (content ++ '*' :: y :: rest))
        = x :: (('<' :: 'i' :: '>' :: []) ++ content ++
            ('<' :: '/' :: 'i' :: '>' :: []) ++
            runPass matchItalicStar (y :: rest)))
    ∧ (∀ (y : Char) (content rest : List Char),
      content ≠ [] → '\n' ∉ content → '_' ∉ content →
      y.toNat < 128 → isWordChar y = false →
      runPassUnder ('_' :: (content ++ '_' :: y :: rest))
        = ('<' :: 'i' :: '>' :: []) ++ content ++
            ('<' :: '/' :: 'i' :: '>' :: []) ++ runPassUnder (y :: rest))
    ∧ (∀ (x : Char) (content rest : List Char),
      x.isAlphanum = true → '_' ∉ content → '_' ∉ rest →
      runPassUnder (x :: '_' :: (content ++ '_' :: rest))
        = x :: '_' :: (content ++ '_' :: rest)) := by
  refine ⟨?_, ?_, ?_⟩
  · intro x y content rest hx hy hne hnl hstar
    have hxs : x ≠ '*' := fun he => by
      rw [he] at hx
      exact absurd hx (by decide)
    have hnone := matchItalicStar_none_of_head x hxs
      ('*' :: (content ++ '*' :: y :: rest))
    have hm := matchItalicStar_complete content (y :: rest) hne hnl hstar
    unfold runPass
    rw [show (x :: '*' :: (content ++ '*' :: y :: rest)).length
      = ('*' :: (content ++ '*' :: y :: rest)).length + 1 from rfl]
    rw [reScan_step_none (fun _ => matchItalicStar) _ none x _ hnone]
    rw [show ('*' :: (content ++ '*' :: y :: rest)).length
      = (content ++ '*' :: y :: rest).length + 1 from rfl]
    rw [reScan_step (fun _ => matchItalicStar) _ (some x) '*' _ _ (y :: rest) hm]
    rw [reScan_prev_irrel matchItalicStar _ _ none (y :: rest)]
    rw [reScan_fuel (fun _ => matchItalicStar) passOK_italicStar.consume _ none
      (y :: rest) (by
        simp only [List.length_cons, List.length_append]
        omega)]
  · intro y content rest hne hnl hund _ hy
    have hm := matchItalicUnder_complete none rfl content y rest hne hnl hund hy
    have hy' : y ≠ '_' := fun he => by
      rw [he] at hy
      exact absurd hy (by decide)
    unfold runPassUnder
    rw [show ('_' :: (content ++ '_' :: y :: rest)).length
      = (content ++ '_' :: y :: rest).length + 1 from rfl]
    rw [reScan_step matchItalicUnder _ none '_' _ _ (y :: rest) hm]
    rw [reScanUnder_prev_head _ _ none y hy' rest]
    rw [reScan_fuel matchItalicUnder passOK_italicUnder.consume _ none
      (y :: rest) (by
        simp only [List.length_cons, List.length_append]
        omega)]
  · intro x content rest hx hund hrest
    have hxw : wordOpt (some x) = true := by
      show isWordChar x = true
      simp [isWordChar, hx]
    have hx_ : x ≠ '_' := fun he => by
      rw [he] at hx
      exact absurd hx (by decide)
    unfold runPassUnder
    rw [show (x :: '_' :: (content ++ '_' :: rest)).length
      = ('_' :: (content ++ '_' :: rest)).length + 1 from rfl]
    rw [reScan_step_none matchItalicUnder _ none x _
      (matchItalicUnder_none_of_head none x hx_ _)]
    rw [show ('_' :: (content ++ '_' :: rest)).length
      = (content ++ '_' :: rest).length + 1 from rfl]
    rw [reScan_step_none matchItalicUnder _ (some x) '_' _
      (matchItalicUnder_word_prev (some x) hxw _)]
    rw [show (content ++ '_' :: rest).length
      = content.length + ('_' :: rest).length from
      List.length_append content ('_' :: rest)]
    rw [reScanUnder_copy content ('_' :: rest) _ (some '_') hund]
    rw [show ('_' :: rest).length = rest.length + 1 from rfl]
    rw [reScan_step_none matchItalicUnder _ _ '_' _
      (matchItalicUnder_no_closer _ rest hrest)]
    rw [reScanUnder_id rest hrest rest.length (some '_') (Nat.le_refl _)]

/-- Witness for C9 at concrete inputs: `a*it*b` converts the star span
despite word characters on both sides; `_of_ …` converts at a non-word
boundary; `f_bar_baz`-shaped input stays unchanged. -/
theorem claim9_witness :
    runPass matchItalicStar ('a' :: '*' :: ("it".data ++ '*' :: 'b' :: []))
      = 'a' :: (('<' :: 'i' :: '>' :: []) ++ "it".data ++
          ('<' :: '/' :: 'i' :: '>' :: []) ++ runPass matchItalicStar ('b' :: []))
    ∧ runPassUnder ('_' :: ("of".data ++ '_' :: ' ' :: "x".data))
      = ('<' :: 'i' :: '>' :: []) ++ "of".data ++
          ('<' :: '/' :: 'i' :: '>' :: []) ++ runPassUnder (' ' :: "x".data)
    ∧ runPassUnder ('f' :: '_' :: ("bar".data ++ '_' :: "baz".data))
      = 'f' :: '_' :: ("bar".data ++ '_' :: "baz".data) :=
  ⟨claim9_italic_underscore_boundary.1 'a' 'b' "it".data []
      (by decide) (by decide) (by decide) (by decide) (by decide),
   claim9_italic_underscore_boundary.2.1 ' ' "of".data "x".data
      (by decide) (by decide) (by decide) (by decide) (by decide),
   claim9_italic_underscore_boundary.2.2 'f' "bar".data "baz".data
      (by decide) (by decide) (by decide)⟩

end LangChecker
